import Mathlib

/-!
# gomutator: a verification development

A shallow embedding of `mutator.go` and `default_mutate_hooks.go`.

The engine walks a Go value through package `reflect`.  The embedding therefore
has three layers:

* the run-time type table (`GoType`, `TypeInfo`) and Go values in memory
  (`Val`, `Heap`);
* the part of `reflect.Value` the engine uses (`RValue` and its operations,
  named after the `reflect` methods they stand for);
* the engine itself (`MutatorChain`, `Mutate`, `alreadyVisited`,
  `processRecursively`, `processStructKind`, `processMapKind`, `Execute`).

Hooks are values of the interface `MutateHook`; they are modelled as functions
of the two arguments of `Mutate`.
-/

namespace Gomutator

/-! ## Run-time types -/

/-- A Go type as `reflect` sees it: the predeclared types the engine can meet,
the empty interface, and an index into the table of the program's other
types. -/
inductive GoType
  | string
  | int
  | any
  | ref (n : Nat)
  deriving DecidableEq, Repr

/-- One member of a struct type: `reflect.StructField` with `Name`, whether
`PkgPath` is empty (the member is exported), and `Type`. -/
structure StructField where
  name : String
  exported : Bool
  type : GoType
  deriving DecidableEq, Repr

/-- The structure of a type of the table. `other` stands for every kind the
engine treats as a leaf and that is not listed (named basic types, channels,
functions, ...). -/
inductive Shape
  | struct (fields : List StructField)
  | ptr (elem : GoType)
  | map (key elem : GoType)
  | slice (elem : GoType)
  | array (elem : GoType)
  | other
  deriving DecidableEq, Repr

/-- A table entry: what `Type.String()` returns for the type, and its
structure. -/
structure TypeInfo where
  str : String
  shape : Shape
  deriving DecidableEq, Repr

/-- The types of the program. A program has finitely many. -/
abbrev TypeTable := List TypeInfo

/-- The entry used for an index outside the table. -/
def unknownType : TypeInfo := ⟨"", .other⟩

/-- The kinds of `reflect.Kind` the engine distinguishes. -/
inductive Kind
  | Invalid
  | String
  | Int
  | Interface
  | Struct
  | Ptr
  | Map
  | Slice
  | Array
  | Other
  deriving DecidableEq, Repr

/-- Shape of a type. -/
def shapeOf (tbl : TypeTable) : GoType → Shape
  | .ref n => (tbl.getD n unknownType).shape
  | _ => .other

/-- The kind of a type: `Type.Kind()`. -/
def kindOf (tbl : TypeTable) : GoType → Kind
  | .string => .String
  | .int => .Int
  | .any => .Interface
  | .ref n =>
    match (tbl.getD n unknownType).shape with
    | .struct _ => .Struct
    | .ptr _ => .Ptr
    | .map _ _ => .Map
    | .slice _ => .Slice
    | .array _ => .Array
    | .other => .Other

/-- The formatted name of a type: `Type.String()`, which is also what the verb
`%T` prints. -/
def typeStr (tbl : TypeTable) : GoType → String
  | .string => "string"
  | .int => "int"
  | .any => "interface {}"
  | .ref n => (tbl.getD n unknownType).str

/-- The members of a struct type, in declaration order (`NumField`,
`Type().Field(i)`); empty for every other type. -/
def structFields (tbl : TypeTable) (t : GoType) : List StructField :=
  match shapeOf tbl t with
  | .struct fs => fs
  | _ => []

/-- The element type of a pointer, map, slice or array type. -/
def elemOf (tbl : TypeTable) (t : GoType) : GoType :=
  match shapeOf tbl t with
  | .ptr e => e
  | .map _ e => e
  | .slice e => e
  | .array e => e
  | _ => t

/-- The key type of a map type. -/
def keyOf (tbl : TypeTable) (t : GoType) : GoType :=
  match shapeOf tbl t with
  | .map k _ => k
  | _ => t

/-! ## Values and memory -/

/-- An addressable location: a variable (an allocated object) and the path of
member or element indices that leads from it to the location. -/
structure Loc where
  obj : Nat
  path : List Nat
  deriving DecidableEq, Repr

/-- A Go value as laid out in memory. A pointer holds a location or nil, a map
holds a handle into the map store or nil, an interface holds nil or a dynamic
type with a value of that type. -/
inductive Val
  | str (s : String)
  | int (n : Int)
  | struct (fields : List Val)
  | array (elems : List Val)
  | ptr (target : Option Loc)
  | map (handle : Option Nat)
  | slice (backing : Option Loc)
  | nilIface
  | iface (typ : GoType) (v : Val)
  deriving Repr

mutual
/-- Equality of two values of one type, as the operator `==` of Go computes it
on comparable values: member by member, pointers by address. -/
def Val.beq : Val → Val → Bool
  | .str a, .str b => a == b
  | .int a, .int b => a == b
  | .struct a, .struct b => Val.beqList a b
  | .array a, .array b => Val.beqList a b
  | .ptr a, .ptr b => a == b
  | .map a, .map b => a == b
  | .slice a, .slice b => a == b
  | .nilIface, .nilIface => true
  | .iface s a, .iface t b => s == t && Val.beq a b
  | _, _ => false
/-- Pointwise `Val.beq` on two lists of members. -/
def Val.beqList : List Val → List Val → Bool
  | [], [] => true
  | a :: as, b :: bs => Val.beq a b && Val.beqList as bs
  | _, _ => false
end

/-- The part of a value reached by a path of member or element indices. -/
def Val.sub : List Nat → Val → Option Val
  | [], v => some v
  | i :: p, .struct fs => (fs.get? i).bind (Val.sub p)
  | i :: p, .array es => (es.get? i).bind (Val.sub p)
  | _ :: _, _ => none

/-- Overwrite the part of a value reached by a path. -/
def Val.update : List Nat → Val → Val → Option Val
  | [], _, x => some x
  | i :: p, .struct fs, x =>
    (fs.get? i).bind fun f => (Val.update p f x).map fun g => .struct (fs.set i g)
  | i :: p, .array es, x =>
    (es.get? i).bind fun f => (Val.update p f x).map fun g => .array (es.set i g)
  | _ :: _, _, _ => none

/-- The entries of one map, in the order `MapKeys` lists them. -/
abbrev MapObj := List (Val × Val)

/-- Memory: the variables, and the maps (a map value is a handle, so two copies
of a map value share their entries). -/
structure Heap where
  objs : List Val
  maps : List MapObj
  deriving Repr

/-- Read a location. -/
def Heap.load (h : Heap) (l : Loc) : Option Val :=
  (h.objs.get? l.obj).bind (Val.sub l.path)

/-- Overwrite a location. -/
def Heap.store (h : Heap) (l : Loc) (x : Val) : Option Heap :=
  (h.objs.get? l.obj).bind fun o =>
    (Val.update l.path o x).map fun o2 => { h with objs := h.objs.set l.obj o2 }

/-- A non-nil value of type `any`: a dynamic type and a value of it. -/
structure Dyn where
  typ : GoType
  val : Val
  deriving Repr

/-- A value of the interface type `any`; `none` is nil. -/
abbrev Any := Option Dyn

/-- Equality of two `any` values, as used for the keys of a Go map: the same
dynamic type and equal values. -/
def Any.beq : Any → Any → Bool
  | none, none => true
  | some a, some b => a.typ == b.typ && Val.beq a.val b.val
  | _, _ => false

/-- A Go string converted to `any`. -/
def goString (s : String) : Any := some ⟨.string, .str s⟩

/-! ## Outcomes -/

/-- How a piece of the engine ends: it returns, it panics (a Go run-time
panic), it is stuck because memory does not have the shape the static type
promises (no Go program gets there), or the recursion budget of the model is
used up. -/
inductive Res (α : Type)
  | ok (a : α)
  | panic
  | stuck
  | timeout
  deriving Repr

/-- Sequencing of outcomes. -/
def Res.bind {α β : Type} : Res α → (α → Res β) → Res β
  | .ok a, f => f a
  | .panic, _ => .panic
  | .stuck, _ => .stuck
  | .timeout, _ => .timeout

instance : Monad Res where
  pure := Res.ok
  bind := Res.bind

/-! ## The part of `reflect` the engine uses -/

/-- Where a `reflect.Value` finds its data: at an addressable location, or in a
read-only copy (the value held by an interface, a map element, the argument of
`ValueOf`), at a path inside that copy. -/
inductive Src
  | addr (l : Loc)
  | copy (root : Val) (path : List Nat)
  deriving Repr

/-- A `reflect.Value` other than the zero Value: its type, its data, and the
flag `flagRO` (obtained through an unexported member). `flagAddr` is set
exactly when the data is at a location. -/
structure RValue where
  typ : GoType
  src : Src
  ro : Bool
  deriving Repr

/-- A `reflect.Value`; `none` is the zero Value. -/
abbrev Value := Option RValue

/-- The function `reflect.ValueOf`. -/
def ValueOf : Any → Value
  | none => none
  | some d => some ⟨d.typ, .copy d.val [], false⟩

/-- The method `Value.Kind`. -/
def Value.Kind (tbl : TypeTable) : Value → Kind
  | none => .Invalid
  | some r => kindOf tbl r.typ

/-- The method `Value.CanAddr`. -/
def RValue.CanAddr (v : RValue) : Bool :=
  match v.src with
  | .addr _ => true
  | .copy _ _ => false

/-- The method `Value.CanAddr`, on a possibly zero Value. -/
def Value.CanAddr : Value → Bool
  | none => false
  | some r => r.CanAddr

/-- The method `Value.CanSet`: addressable and not obtained through an
unexported member. -/
def RValue.CanSet (v : RValue) : Bool := v.CanAddr && !v.ro

/-- The method `Value.CanSet`, on a possibly zero Value. -/
def Value.CanSet : Value → Bool
  | none => false
  | some r => r.CanSet

/-- The data a Value currently denotes. -/
def RValue.load (h : Heap) (v : RValue) : Option Val :=
  match v.src with
  | .addr l => h.load l
  | .copy r p => Val.sub p r

/-- The method `Value.Field(i)` of a struct Value, given the descriptor of
member `i`: the member is addressable when the struct is, and read-only when
the struct is or the member is unexported. -/
def RValue.Field (v : RValue) (i : Nat) (f : StructField) : RValue :=
  { typ := f.type
    src := match v.src with
      | .addr l => .addr ⟨l.obj, l.path ++ [i]⟩
      | .copy r p => .copy r (p ++ [i])
    ro := v.ro || !f.exported }

/-- The method `Value.Elem` of a pointer or interface Value. The pointee of a
pointer is addressable; the value held by an interface is not. The dynamic type
of an interface value is never an interface type. -/
def RValue.Elem (tbl : TypeTable) (h : Heap) (v : RValue) : Res Value :=
  match kindOf tbl v.typ with
  | .Ptr =>
    match v.load h with
    | some (.ptr none) => .ok none
    | some (.ptr (some l)) => .ok (some ⟨elemOf tbl v.typ, .addr l, v.ro⟩)
    | _ => .stuck
  | .Interface =>
    match v.load h with
    | some .nilIface => .ok none
    | some (.iface t x) =>
      if kindOf tbl t = .Interface then .stuck else .ok (some ⟨t, .copy x [], v.ro⟩)
    | _ => .stuck
  | _ => .panic

/-- The method `Value.Elem`, on a possibly zero Value. -/
def Value.Elem (tbl : TypeTable) (h : Heap) : Value → Res Value
  | none => .panic
  | some r => r.Elem tbl h

/-- The method `Value.Interface`: the value as an `any`. It panics on a Value
obtained through an unexported member. For a Value of interface kind it
returns the held value (whose dynamic type is never an interface type). -/
def RValue.Interface (tbl : TypeTable) (h : Heap) (v : RValue) : Res Any :=
  if v.ro then .panic
  else
    match v.load h with
    | none => .stuck
    | some x =>
      if kindOf tbl v.typ = .Interface then
        match x with
        | .nilIface => .ok none
        | .iface t y => if kindOf tbl t = .Interface then .stuck else .ok (some ⟨t, y⟩)
        | _ => .stuck
      else .ok (some ⟨v.typ, x⟩)

/-- The method `Value.Interface`, on a possibly zero Value (where it
panics). -/
def Value.Interface (tbl : TypeTable) (h : Heap) : Value → Res Any
  | none => .panic
  | some r => r.Interface tbl h

/-- The conversion `Value.assignTo` applies before a store into a destination
of type `dst`: a value of the identical type is stored as it is, any value is
boxed into a destination of interface type, everything else panics. -/
def assignTo (tbl : TypeTable) (h : Heap) (dst : GoType) (x : RValue) : Res Val :=
  match x.load h with
  | none => .stuck
  | some xv =>
    if x.typ = dst then .ok xv
    else if kindOf tbl dst = .Interface then .ok (.iface x.typ xv)
    else .panic

/-- The method `Value.Set`: panics unless the destination is settable, panics
on the zero Value, converts with `assignTo` and stores. -/
def RValue.Set (tbl : TypeTable) (h : Heap) (v : RValue) (x : Value) : Res Heap :=
  if !v.CanSet then .panic
  else
    match x with
    | none => .panic
    | some xr =>
      if xr.ro then .panic
      else
        match v.src with
        | .copy _ _ => .panic
        | .addr l =>
          (assignTo tbl h v.typ xr).bind fun xv =>
            match h.store l xv with
            | some h2 => .ok h2
            | none => .stuck

/-- The entries of the map a map value denotes; a nil map has none. -/
def Heap.entries (h : Heap) : Val → Option MapObj
  | .map none => some []
  | .map (some n) => h.maps.get? n
  | _ => none

/-- Find the element stored under a key. -/
def MapObj.find (es : MapObj) (k : Val) : Option Val :=
  match es with
  | [] => none
  | (k2, e) :: rest => if Val.beq k2 k then some e else MapObj.find rest k

/-- Store an element under a key: overwrite the entry if the key is present,
add an entry otherwise (`mapassign`). -/
def MapObj.assign (es : MapObj) (k e : Val) : MapObj :=
  match es with
  | [] => [(k, e)]
  | (k2, e2) :: rest =>
    if Val.beq k2 k then (k2, e) :: rest else (k2, e2) :: MapObj.assign rest k e

/-- Remove the entry of a key (`mapdelete`). -/
def MapObj.delete (es : MapObj) (k : Val) : MapObj :=
  es.filter fun p => !Val.beq p.1 k

/-- The method `Value.MapKeys`: a snapshot of the keys, each a Value that is
not addressable. -/
def RValue.MapKeys (tbl : TypeTable) (h : Heap) (v : RValue) : Res (List RValue) :=
  match (v.load h).bind h.entries with
  | none => .stuck
  | some es => .ok (es.map fun p => ⟨keyOf tbl v.typ, .copy p.1 [], v.ro⟩)

/-- The method `Value.MapIndex`: a copy of the element stored under the key,
not addressable; the zero Value when the key is absent. -/
def RValue.MapIndex (tbl : TypeTable) (h : Heap) (v key : RValue) : Res Value :=
  match (v.load h).bind h.entries, key.load h with
  | some es, some k =>
    match es.find k with
    | none => .ok none
    | some e => .ok (some ⟨elemOf tbl v.typ, .copy e [], v.ro || key.ro⟩)
  | _, _ => .stuck

/-- The method `Value.SetMapIndex`. With the zero Value as element it deletes
the key. Otherwise the element is converted with `assignTo` and stored;
storing into a nil map panics. -/
def RValue.SetMapIndex (tbl : TypeTable) (h : Heap) (v key : RValue) (x : Value) :
    Res Heap :=
  if v.ro || key.ro then .panic
  else
    match v.load h, key.load h with
    | some (.map none), some _ =>
      match x with
      | none => .ok h
      | some xr =>
        if xr.ro then .panic else (assignTo tbl h (elemOf tbl v.typ) xr).bind fun _ => .panic
    | some (.map (some n)), some k =>
      match h.maps.get? n with
      | none => .stuck
      | some es =>
        match x with
        | none => .ok { h with maps := h.maps.set n (es.delete k) }
        | some xr =>
          if xr.ro then .panic
          else
            (assignTo tbl h (elemOf tbl v.typ) xr).bind fun e =>
              .ok { h with maps := h.maps.set n (es.assign k e) }
    | _, _ => .stuck

/-! ## The registry of hooks -/

/-- The interface `MutateHook`: the method `Mutate(parent, current)`. -/
abbrev MutateHook := Any → Any → Any

/-- The type `MutatorChain`: the map `mutateMapper` from keys to hooks, as a
list of entries with pairwise different keys in which the first entry of a key
counts. (The mutex has no sequential behaviour.) -/
structure MutatorChain where
  mutateMapper : List (Any × MutateHook)

/-- The lookup `mc.mutateMapper[key]`. -/
def lookupHook : List (Any × MutateHook) → Any → Option MutateHook
  | [], _ => none
  | (k, mh) :: rest, key => if Any.beq k key then some mh else lookupHook rest key

/-- The method `MutatorChain.Get`: the hook and whether the key is present. -/
def MutatorChain.Get (mc : MutatorChain) (key : Any) : Option MutateHook :=
  lookupHook mc.mutateMapper key

/-- The registry after the assignment `mc.mutateMapper[key] = mh` (for a key
that can be hashed). -/
def MutatorChain.assign (mc : MutatorChain) (key : Any) (mh : MutateHook) : MutatorChain :=
  ⟨(key, mh) :: mc.mutateMapper.filter fun e => !Any.beq e.1 key⟩

mutual
/-- Whether a value can be a key of a Go map: slices and maps cannot be hashed,
nor can a struct, an array or an interface value that holds one. -/
def Val.hashable : Val → Bool
  | .str _ => true
  | .int _ => true
  | .ptr _ => true
  | .nilIface => true
  | .map _ => false
  | .slice _ => false
  | .struct fs => Val.hashableList fs
  | .array es => Val.hashableList es
  | .iface _ v => Val.hashable v
/-- Whether every member can be hashed. -/
def Val.hashableList : List Val → Bool
  | [] => true
  | a :: as => Val.hashable a && Val.hashableList as
end

/-- Whether an `any` can be a key of a `map[any]T`; nil can. -/
def Any.hashable : Any → Bool
  | none => true
  | some d => d.val.hashable

/-- The method `MutatorChain.Add`: it takes the lock, assigns
`mc.mutateMapper[key] = mh`, which panics (`hash of unhashable type`) for a key
that cannot be hashed, and returns the receiver: the registry after the
assignment. -/
def MutatorChain.Add (mc : MutatorChain) (key : Any) (mh : MutateHook) : Res MutatorChain :=
  if Any.hashable key then .ok (mc.assign key mh) else .panic

/-- The method `MutatorChain.Remove`: `delete(mc.mutateMapper, key)` for a
string key. -/
def MutatorChain.Remove (mc : MutatorChain) (key : String) : MutatorChain :=
  ⟨mc.mutateMapper.filter fun e => !Any.beq e.1 (goString key)⟩

/-- The type `MutateType`, an `int8`. -/
abbrev MutateType := Int

/-- The constant `TypeAndFieldMatch` (`iota + 1`). -/
def TypeAndFieldMatch : MutateType := 1

/-- The constant `FieldMatch`. -/
def FieldMatch : MutateType := 2

/-- The type `Mutate`: the engine. -/
structure Mutate where
  hook : MutatorChain
  matchType : MutateType

/-- The constructor `NewMutator`: an engine of the given match type with an
empty registry. -/
def NewMutator (typ : MutateType) : Mutate := ⟨⟨[]⟩, typ⟩

/-- The constructor `NewFieldMatchMutator`. -/
def NewFieldMatchMutator : Mutate := NewMutator FieldMatch

/-- The method `PasswordDefaultMutator.Mutate`: a string becomes the mask,
every other value is returned as it is. -/
def PasswordDefaultMutator : MutateHook := fun _parent current =>
  match current with
  | some ⟨.string, _⟩ => goString "********"
  | _ => current

/-! ## The engine -/

/-- One invocation of a hook, recorded for the statements about which hooks run
and with which arguments. -/
structure HookCall where
  key : Any
  parent : Any
  current : Any
  result : Any
  deriving Repr

/-- The state of one `Execute` call: memory, the set `visited`, and two
records kept for the statements only: the hook invocations in order, and the
addressable nodes that passed the check of `alreadyVisited`. -/
structure State where
  heap : Heap
  visited : List String
  calls : List HookCall
  expanded : List (GoType × Loc)
  deriving Repr

/-- The string `v.Addr().String()`. `Addr` returns a Value of pointer kind, and
`String` on a Value that is not of string kind returns the name of its type
between `<` and ` Value>`. -/
def addrString (tbl : TypeTable) (t : GoType) : String :=
  "<" ++ ("*" ++ typeStr tbl t) ++ " Value>"

/-- The function `alreadyVisited`: false for a Value that is not addressable;
otherwise whether `v.Addr().String()` is in the set, which it joins if it was
not. -/
def alreadyVisited (tbl : TypeTable) (v : Value) (visited : List String) :
    Bool × List String :=
  if !Value.CanAddr v then (false, visited)
  else
    match v with
    | none => (false, visited)
    | some r =>
      let addr := addrString tbl r.typ
      if addr ∈ visited then (true, visited) else (false, addr :: visited)

/-- The record of an addressable node that passed the check. -/
def noteExpanded (v : Value) (expanded : List (GoType × Loc)) : List (GoType × Loc) :=
  match v with
  | some ⟨t, .addr l, _⟩ => (t, l) :: expanded
  | _ => expanded

/-- What the verb `%T` prints for an `any`. -/
def fmtT (tbl : TypeTable) : Any → String
  | none => "<nil>"
  | some d => typeStr tbl d.typ

/-- The lookup key of a struct member: its name, or under `TypeAndFieldMatch`
`fmt.Sprintf("%T.%v", v.Interface(), name)`. -/
def fieldKey (m : Mutate) (tbl : TypeTable) (h : Heap) (v : RValue) (name : String) :
    Res Any :=
  if m.matchType = TypeAndFieldMatch then
    (v.Interface tbl h).bind fun o => .ok (goString (fmtT tbl o ++ "." ++ name))
  else .ok (goString name)

/-- The body of the loop of `processStructKind` for member `i`; `recur` stands
for `m.processRecursively`. -/
def structStep (m : Mutate) (tbl : TypeTable) (recur : Value → State → Res State)
    (v : RValue) (i : Nat) (f : StructField) (st : State) : Res State :=
  let field := v.Field i f
  if !field.CanSet then .ok st
  else
    (fieldKey m tbl st.heap v f.name).bind fun key =>
      match m.hook.Get key with
      | some mh =>
        (v.Interface tbl st.heap).bind fun parent =>
          (field.Interface tbl st.heap).bind fun current =>
            let newValue := mh parent current
            (field.Set tbl st.heap (ValueOf newValue)).bind fun h2 =>
              .ok { st with heap := h2, calls := st.calls ++ [⟨key, parent, current, newValue⟩] }
      | none => recur (some field) st

/-- The loop `for i := 0; i < v.NumField(); i++` of `processStructKind`, from
member `i` on. -/
def structLoop (m : Mutate) (tbl : TypeTable) (recur : Value → State → Res State)
    (v : RValue) : Nat → List StructField → State → Res State
  | _, [], st => .ok st
  | i, f :: fs, st =>
    (structStep m tbl recur v i f st).bind (structLoop m tbl recur v (i + 1) fs)

/-- The method `processStructKind`. -/
def processStructKind (m : Mutate) (tbl : TypeTable) (recur : Value → State → Res State)
    (v : Value) (st : State) : Res State :=
  match v with
  | none => .ok st
  | some r =>
    if kindOf tbl r.typ ≠ .Struct then .ok st
    else structLoop m tbl recur r 0 (structFields tbl r.typ) st

/-- The body of the loop of `processMapKind` for one key. -/
def mapStep (m : Mutate) (tbl : TypeTable) (recur : Value → State → Res State)
    (v key : RValue) (st : State) : Res State :=
  (v.MapIndex tbl st.heap key).bind fun value =>
    (key.Interface tbl st.heap).bind fun k =>
      match m.hook.Get k with
      | some mh =>
        (Value.Interface tbl st.heap value).bind fun current =>
          let newValue := mh none current
          (v.SetMapIndex tbl st.heap key (ValueOf newValue)).bind fun h2 =>
            .ok { st with heap := h2, calls := st.calls ++ [⟨k, none, current, newValue⟩] }
      | none => recur value st

/-- The loop `for _, key := range v.MapKeys()` of `processMapKind`. -/
def mapLoop (m : Mutate) (tbl : TypeTable) (recur : Value → State → Res State)
    (v : RValue) : List RValue → State → Res State
  | [], st => .ok st
  | key :: keys, st =>
    (mapStep m tbl recur v key st).bind (mapLoop m tbl recur v keys)

/-- The method `processMapKind`. -/
def processMapKind (m : Mutate) (tbl : TypeTable) (recur : Value → State → Res State)
    (v : Value) (st : State) : Res State :=
  match v with
  | none => .ok st
  | some r =>
    if kindOf tbl r.typ ≠ .Map then .ok st
    else if !r.CanSet then .ok st
    else (r.MapKeys tbl st.heap).bind fun keys => mapLoop m tbl recur r keys st

/-- The method `processRecursively`. The first argument bounds the depth of
the recursion; `timeout` is the outcome when it is used up. -/
def processRecursively (m : Mutate) (tbl : TypeTable) : Nat → Value → State → Res State
  | 0, _, _ => .timeout
  | fuel + 1, v, st =>
    match alreadyVisited tbl v st.visited with
    | (true, _) => .ok st
    | (false, visited) =>
      let st1 : State :=
        { st with visited := visited, expanded := noteExpanded v st.expanded }
      match Value.Kind tbl v with
      | .Invalid => .ok st1
      | .Struct => processStructKind m tbl (processRecursively m tbl fuel) v st1
      | .Map => processMapKind m tbl (processRecursively m tbl fuel) v st1
      | .Ptr => (Value.Elem tbl st1.heap v).bind fun e => processRecursively m tbl fuel e st1
      | .Interface => (Value.Elem tbl st1.heap v).bind fun e => processRecursively m tbl fuel e st1
      | _ => .ok st1

/-- The state in which `Execute` starts: the caller's memory and a new, empty
`visited` set. -/
def initState (h : Heap) : State := ⟨h, [], [], []⟩

/-- A depth no traversal over the table exceeds: three levels for each
formatted type name, and three more. -/
def depthBound (tbl : TypeTable) : Nat := 3 * (tbl.length + 4) + 3

/-- The method `Execute`, on the caller's memory and the argument `data`. -/
def Execute (m : Mutate) (tbl : TypeTable) (h : Heap) (data : Any) : Res State :=
  processRecursively m tbl (depthBound tbl) (ValueOf data) (initState h)

/-! ## The values of the test and of the example -/

/-- The types of `TestMutator`: the local type `CirclularCredentials` and the
pointer to it. -/
def ccTable : TypeTable :=
  [⟨"gomutator.CirclularCredentials",
      .struct [⟨"Head", true, .ref 1⟩, ⟨"Username", true, .string⟩, ⟨"Password", true, .string⟩]⟩,
   ⟨"*gomutator.CirclularCredentials", .ptr (.ref 0)⟩]

/-- The variable `cc` of the test, with `cc.Head = &cc`, and the given
`Username` and `Password`. -/
def ccHeap (u p : String) : Heap :=
  ⟨[.struct [.ptr (some ⟨0, []⟩), .str u, .str p]], []⟩

/-- The argument `&cc`. -/
def ccRoot : Any := some ⟨.ref 1, .ptr (some ⟨0, []⟩)⟩

/-- The registry of the test: `Add("Password", pm)` and `Add("password", pm)`
on the registry of a new engine. -/
def testChain : MutatorChain :=
  ((NewFieldMatchMutator.hook).assign (goString "Password") PasswordDefaultMutator).assign
    (goString "password") PasswordDefaultMutator

/-- The engine of the test. -/
def testMutator : Mutate := ⟨testChain, FieldMatch⟩

/-- The types `map[string]string` and the pointer to it. -/
def strMapTable : TypeTable :=
  [⟨"map[string]string", .map .string .string⟩, ⟨"*map[string]string", .ptr (.ref 0)⟩]

/-- The entries of a `map[string]string`. -/
def strMapObj (cm : List (String × String)) : MapObj :=
  cm.map fun e => (Val.str e.1, Val.str e.2)

/-- A variable `cm` of type `map[string]string` holding the given entries. -/
def strMapHeap (cm : List (String × String)) : Heap :=
  ⟨[.map (some 0)], [strMapObj cm]⟩

/-- The argument `&cm`. -/
def strMapRoot : Any := some ⟨.ref 1, .ptr (some ⟨0, []⟩)⟩

/-- The entries expected after `Execute`: the value under `"password"` masked,
every other entry as it was. -/
def maskPassword (cm : List (String × String)) : List (String × String) :=
  cm.map fun e => if e.1 = "password" then (e.1, "********") else e

/-- Two records of one type held by two members of a record:
`type Inner struct{ Password string }`, `type Outer struct{ A, B Inner }`. -/
def outerTable : TypeTable :=
  [⟨"main.Inner", .struct [⟨"Password", true, .string⟩]⟩,
   ⟨"main.Outer", .struct [⟨"A", true, .ref 0⟩, ⟨"B", true, .ref 0⟩]⟩,
   ⟨"*main.Outer", .ptr (.ref 1)⟩]

/-- The variable `o := Outer{A: Inner{"a"}, B: Inner{"b"}}`. -/
def outerHeap : Heap := ⟨[.struct [.struct [.str "a"], .struct [.str "b"]]], []⟩

/-- The argument `&o`. -/
def outerRoot : Any := some ⟨.ref 2, .ptr (some ⟨0, []⟩)⟩

/-- A chain of two nodes: `type Node struct{ Password string; Next *Node }`. -/
def nodeTable : TypeTable :=
  [⟨"main.Node", .struct [⟨"Password", true, .string⟩, ⟨"Next", true, .ref 1⟩]⟩,
   ⟨"*main.Node", .ptr (.ref 0)⟩]

/-- The variables `n2 := Node{"b", nil}` and `n1 := Node{"a", &n2}` (objects 1
and 0). -/
def nodeHeap : Heap :=
  ⟨[.struct [.str "a", .ptr (some ⟨1, []⟩)], .struct [.str "b", .ptr none]], []⟩

/-- The argument `&n1`. -/
def nodeRoot : Any := some ⟨.ref 1, .ptr (some ⟨0, []⟩)⟩

/-! ## Quantities for the termination argument -/

/-- Every type of the program, and one index outside the table: between them
they carry every formatted type name a Value can have. -/
def allTypes (tbl : TypeTable) : List GoType :=
  [.string, .int, .any] ++ (List.range (tbl.length + 1)).map GoType.ref

/-- Every string `alreadyVisited` can add to the set. -/
def allAddrStrings (tbl : TypeTable) : List String :=
  (allTypes tbl).map (addrString tbl)

/-- How many of these strings are not yet in the set. -/
def unvisited (tbl : TypeTable) (visited : List String) : Nat :=
  ((allAddrStrings tbl).filter fun s => decide (s ∉ visited)).length

/-- How many calls a Value can need before the traversal reaches an addressable
node again or stops. -/
def levels (tbl : TypeTable) : Value → Nat
  | none => 1
  | some r => if r.CanAddr then 1 else if kindOf tbl r.typ = .Interface then 3 else 2

/-! ## The three kinds of primitive steps, as proof obligations -/

/-- Marking keeps the property and records `P` for an addressable node. -/
def MarkOk (tbl : TypeTable) (I : State → Prop) (P : RValue → Prop) : Prop :=
  ∀ (st : State) (v : Value) (vis : List String), I st →
    alreadyVisited tbl v st.visited = (false, vis) →
    I { st with visited := vis, expanded := noteExpanded v st.expanded } ∧
      ∀ r, v = some r → r.CanAddr = true → P r

/-- A hook assigned to a struct member keeps the property. -/
def FieldHitOk (m : Mutate) (tbl : TypeTable) (I : State → Prop) (P : RValue → Prop) : Prop :=
  ∀ (st : State) (r : RValue) (i : Nat) (f : StructField) (key : Any) (mh : MutateHook)
    (parent current : Any) (h2 : Heap), I st → P r → f ∈ structFields tbl r.typ →
    (r.Field i f).CanSet = true →
    fieldKey m tbl st.heap r f.name = .ok key → m.hook.Get key = some mh →
    r.Interface tbl st.heap = .ok parent →
    (r.Field i f).Interface tbl st.heap = .ok current →
    (r.Field i f).Set tbl st.heap (ValueOf (mh parent current)) = .ok h2 →
    I { st with heap := h2, calls := st.calls ++ [⟨key, parent, current, mh parent current⟩] }

/-- A hook assigned to a map entry keeps the property. `st0` is the state in
which the keys were listed. -/
def EntryHitOk (m : Mutate) (tbl : TypeTable) (I : State → Prop) (P : RValue → Prop) : Prop :=
  ∀ (st0 st : State) (r : RValue) (keys : List RValue) (key : RValue) (value : Value)
    (k : Any) (mh : MutateHook) (current : Any) (h2 : Heap), I st0 → I st → P r →
    r.CanSet = true → r.MapKeys tbl st0.heap = .ok keys → key ∈ keys →
    r.MapIndex tbl st.heap key = .ok value → key.Interface tbl st.heap = .ok k →
    m.hook.Get k = some mh → Value.Interface tbl st.heap value = .ok current →
    r.SetMapIndex tbl st.heap key (ValueOf (mh none current)) = .ok h2 →
    I { st with heap := h2, calls := st.calls ++ [⟨k, none, current, mh none current⟩] }


/-- The lookup key `processStructKind` computes for a member of a record of
type `t`: the member name, or under `TypeAndFieldMatch` the formatted type
name, a dot, and the member name. -/
def memberKey (m : Mutate) (tbl : TypeTable) (t : GoType) (name : String) : Any :=
  if m.matchType = TypeAndFieldMatch then goString (typeStr tbl t ++ "." ++ name)
  else goString name

/-- The types of the counterexample to idempotence:
`type T struct{ Password string }` and
`type S struct{ P **T; A *T }`, with `*T`, `**T` and `*S`. -/
def aliasTable : TypeTable :=
  [⟨"main.T", .struct [⟨"Password", true, .string⟩]⟩,
   ⟨"*main.T", .ptr (.ref 0)⟩,
   ⟨"**main.T", .ptr (.ref 1)⟩,
   ⟨"main.S", .struct [⟨"P", true, .ref 2⟩, ⟨"A", true, .ref 1⟩]⟩,
   ⟨"*main.S", .ptr (.ref 3)⟩]

/-- The variables `s := S{}` with `s.P = &s.A` (object 0) and `t := T{"x"}`
(object 1). -/
def aliasHeap : Heap :=
  ⟨[.struct [.ptr (some ⟨0, [1]⟩), .ptr none], .struct [.str "x"]], []⟩

/-- The argument `&s`. -/
def aliasRoot : Any := some ⟨.ref 4, .ptr (some ⟨0, []⟩)⟩

/-- A hook that always returns `&t`. -/
def fixedPointer : MutateHook := fun _ _ => some ⟨.ref 1, .ptr (some ⟨1, []⟩)⟩

/-- A hook that always returns the mask. -/
def fixedMask : MutateHook := fun _ _ => goString "********"

/-- The engine of the counterexample: `fixedPointer` under `"A"`, `fixedMask`
under `"Password"`. -/
def aliasMutator : Mutate :=
  ⟨((NewFieldMatchMutator.hook).assign (goString "A") fixedPointer).assign (goString "Password")
    fixedMask, FieldMatch⟩

/-- The invocation `Execute(&cc)` records on the record of the test when
`cc.Password` is `p`. -/
def ccCall (p : String) : HookCall :=
  ⟨goString "Password",
    some ⟨.ref 0, .struct [.ptr (some ⟨0, []⟩), .str "admin", .str p]⟩,
    goString p, goString "********"⟩

/-- The state `Execute(&cc)` returns on the record of the test when
`cc.Password` is `p`. -/
def ccAfter (p : String) : State :=
  { heap := ccHeap "admin" "********"
    visited := ["<*string Value>", "<**gomutator.CirclularCredentials Value>",
      "<*gomutator.CirclularCredentials Value>"]
    calls := [ccCall p]
    expanded := [(.string, ⟨0, [1]⟩), (.ref 1, ⟨0, [0]⟩), (.ref 0, ⟨0, []⟩)] }

/-- The argument `&b.Inner`, a pointer to an `A` record. -/
def abInnerRoot : Any := some ⟨.ref 3, .ptr (some ⟨0, [1]⟩)⟩

/-- A record with a member of interface type: `type Box struct{ Password any }`,
with `*Box`. -/
def boxTable : TypeTable :=
  [⟨"main.Box", .struct [⟨"Password", true, .any⟩]⟩, ⟨"*main.Box", .ptr (.ref 0)⟩]

/-- The variable `b := Box{}`: its `Password` holds nil. -/
def boxHeap : Heap := ⟨[.struct [.nilIface]], []⟩

/-- The argument `&b`. -/
def boxRoot : Any := some ⟨.ref 1, .ptr (some ⟨0, []⟩)⟩

/-- A hook that always returns nil. -/
def nilHook : MutateHook := fun _ _ => none

/-- An engine with `nilHook` under `"password"`. -/
def nilMutator : Mutate :=
  ⟨(NewFieldMatchMutator.hook).assign (goString "password") nilHook, FieldMatch⟩

/-- The types `map[string]any` and the pointer to it. -/
def anyMapTable : TypeTable :=
  [⟨"map[string]interface {}", .map .string .any⟩,
   ⟨"*map[string]interface {}", .ptr (.ref 0)⟩]

/-- The variable `m := map[string]any{"username": "admin", "password": nil}`. -/
def anyMapHeap : Heap :=
  ⟨[.map (some 0)], [[(.str "username", .iface .string (.str "admin")), (.str "password", .nilIface)]]⟩

/-- An engine with `PasswordDefaultMutator` under `"Username"` and under
`"Password"`. -/
def bothMutator : Mutate :=
  ⟨((NewFieldMatchMutator.hook).assign (goString "Username") PasswordDefaultMutator).assign
    (goString "Password") PasswordDefaultMutator, FieldMatch⟩

/-- The types `map[string]string`, `map[string]map[string]string` and the
pointer to the latter. -/
def nestedMapTable : TypeTable :=
  [⟨"map[string]string", .map .string .string⟩,
   ⟨"map[string]map[string]string", .map .string (.ref 0)⟩,
   ⟨"*map[string]map[string]string", .ptr (.ref 1)⟩]

/-- The variable
`m := map[string]map[string]string{"inner": {"password": "admin"}}`. -/
def nestedMapHeap : Heap :=
  ⟨[.map (some 0)], [[(.str "inner", .map (some 1))], [(.str "password", .str "admin")]]⟩

/-- The argument `&m`. -/
def nestedMapRoot : Any := some ⟨.ref 2, .ptr (some ⟨0, []⟩)⟩

/-- The Value of the variable `m`, as `processMapKind` receives it. -/
def nestedMapValue : RValue := ⟨.ref 1, .addr ⟨0, []⟩, false⟩

/-- The Value of the key `"inner"`, as `MapKeys` returns it. -/
def innerKey : RValue := ⟨.string, .copy (.str "inner") [], false⟩

/-- An atomic action on the shared registry. -/
inductive Act
  | lock
  | unlock
  | writeBegin
  | writeEnd
  | read
  deriving DecidableEq, Repr

/-- The method `Add`: `mc.lock.Lock()`, the deferred `Unlock`, and in between
the assignment `mc.mutateMapper[key] = mh`. -/
def addActs : List Act := [.lock, .writeBegin, .writeEnd, .unlock]

/-- The method `Remove`: `mc.lock.Lock()`, the deferred `Unlock`, and in between
`delete(mc.mutateMapper, key)`. -/
def removeActs : List Act := [.lock, .writeBegin, .writeEnd, .unlock]

/-- The method `Get`: the lookup `mc.mutateMapper[key]`, and nothing else. -/
def getActs : List Act := [.read]

/-- What the goroutines share: whether the mutex is held, whether the map is
marked as being written, and whether the runtime has aborted the program. -/
structure Shared where
  locked : Bool
  writing : Bool
  fault : Bool
  deriving DecidableEq, Repr

/-- Whether an action can run: `Lock` waits while the mutex is held. -/
def Act.enabled (s : Shared) : Act → Bool
  | .lock => !s.locked
  | _ => true

/-- The effect of an action. -/
def Act.run (s : Shared) : Act → Shared
  | .lock => { s with locked := true }
  | .unlock => { s with locked := false }
  | .writeBegin => if s.writing then { s with fault := true } else { s with writing := true }
  | .writeEnd => { s with writing := false }
  | .read => if s.writing then { s with fault := true } else s

/-- Run two goroutines under a schedule: `false` lets the first one do its next
action, `true` the second. `none` when the schedule picks a goroutine that has
finished or waits for the mutex. -/
def runSchedule : List Bool → List Act → List Act → Shared → Option Shared
  | [], _, _, s => some s
  | false :: rest, a :: p0, p1, s =>
    if a.enabled s then runSchedule rest p0 p1 (a.run s) else none
  | true :: rest, p0, a :: p1, s =>
    if a.enabled s then runSchedule rest p0 p1 (a.run s) else none
  | false :: _, [], _, _ => none
  | true :: _, _, [], _ => none

/-- All schedules of a given length. -/
def allSchedules : Nat → List (List Bool)
  | 0 => [[]]
  | n + 1 => (allSchedules n).map (List.cons false) ++ (allSchedules n).map (List.cons true)

/-- Whether a run ended, or could not be scheduled, without the runtime
aborting. -/
def noFault : Option Shared → Bool
  | none => true
  | some s => !s.fault

/-! # Theorems -/

/-! ## Basic facts about outcomes -/

@[simp] theorem Res.ok_bind {α β : Type} (a : α) (f : α → Res β) : (Res.ok a).bind f = f a := rfl

@[simp] theorem Res.panic_bind {α β : Type} (f : α → Res β) :
    (Res.panic : Res α).bind f = .panic := rfl

@[simp] theorem Res.stuck_bind {α β : Type} (f : α → Res β) :
    (Res.stuck : Res α).bind f = .stuck := rfl

@[simp] theorem Res.timeout_bind {α β : Type} (f : α → Res β) :
    (Res.timeout : Res α).bind f = .timeout := rfl

theorem Res.bind_eq_ok {α β : Type} {x : Res α} {f : α → Res β} {b : β}
    (h : x.bind f = .ok b) : ∃ a, x = .ok a ∧ f a = .ok b := by
  cases x with
  | ok a => exact ⟨a, rfl, h⟩
  | panic => simp at h
  | stuck => simp at h
  | timeout => simp at h

theorem Res.bind_ne_timeout {α β : Type} {x : Res α} {f : α → Res β}
    (h : x.bind f ≠ .timeout) : x ≠ .timeout := by
  intro hx
  rw [hx] at h
  exact h rfl

/-! ## More budget does not change an outcome -/

theorem structStep_congr (m : Mutate) (tbl : TypeTable) (recur recur2 : Value → State → Res State)
    (hrec : ∀ v st, recur v st ≠ .timeout → recur2 v st = recur v st)
    (r : RValue) (i : Nat) (f : StructField) (st : State)
    (h : structStep m tbl recur r i f st ≠ .timeout) :
    structStep m tbl recur2 r i f st = structStep m tbl recur r i f st := by
  unfold structStep at h ⊢
  by_cases hc : (r.Field i f).CanSet = true
  · simp only [hc, Bool.not_true, Bool.false_eq_true, if_false] at h ⊢
    cases hk : fieldKey m tbl st.heap r f.name with
    | ok key =>
      simp only [hk, Res.ok_bind] at h ⊢
      cases hg : m.hook.Get key with
      | some mh => rfl
      | none =>
        simp only [hg] at h ⊢
        exact hrec _ _ h
    | panic => rfl
    | stuck => rfl
    | timeout => rfl
  · simp [hc]

theorem structLoop_congr (m : Mutate) (tbl : TypeTable) (recur recur2 : Value → State → Res State)
    (hrec : ∀ v st, recur v st ≠ .timeout → recur2 v st = recur v st) (r : RValue) :
    ∀ (fs : List StructField) (i : Nat) (st : State),
      structLoop m tbl recur r i fs st ≠ .timeout →
      structLoop m tbl recur2 r i fs st = structLoop m tbl recur r i fs st := by
  intro fs
  induction fs with
  | nil => intro i st _; rfl
  | cons f fs ih =>
    intro i st h
    unfold structLoop at h ⊢
    have h1 := Res.bind_ne_timeout h
    rw [structStep_congr m tbl recur recur2 hrec r i f st h1]
    cases hs : structStep m tbl recur r i f st with
    | ok st2 =>
      simp only [hs, Res.ok_bind] at h ⊢
      exact ih (i + 1) st2 h
    | panic => rfl
    | stuck => rfl
    | timeout => rfl

theorem mapStep_congr (m : Mutate) (tbl : TypeTable) (recur recur2 : Value → State → Res State)
    (hrec : ∀ v st, recur v st ≠ .timeout → recur2 v st = recur v st)
    (r key : RValue) (st : State)
    (h : mapStep m tbl recur r key st ≠ .timeout) :
    mapStep m tbl recur2 r key st = mapStep m tbl recur r key st := by
  unfold mapStep at h ⊢
  cases hv : r.MapIndex tbl st.heap key with
  | ok value =>
    simp only [hv, Res.ok_bind] at h ⊢
    cases hk : key.Interface tbl st.heap with
    | ok k =>
      simp only [hk, Res.ok_bind] at h ⊢
      cases hg : m.hook.Get k with
      | some mh => rfl
      | none =>
        simp only [hg] at h ⊢
        exact hrec _ _ h
    | panic => rfl
    | stuck => rfl
    | timeout => rfl
  | panic => rfl
  | stuck => rfl
  | timeout => rfl

theorem mapLoop_congr (m : Mutate) (tbl : TypeTable) (recur recur2 : Value → State → Res State)
    (hrec : ∀ v st, recur v st ≠ .timeout → recur2 v st = recur v st) (r : RValue) :
    ∀ (keys : List RValue) (st : State),
      mapLoop m tbl recur r keys st ≠ .timeout →
      mapLoop m tbl recur2 r keys st = mapLoop m tbl recur r keys st := by
  intro keys
  induction keys with
  | nil => intro st _; rfl
  | cons key keys ih =>
    intro st h
    unfold mapLoop at h ⊢
    have h1 := Res.bind_ne_timeout h
    rw [mapStep_congr m tbl recur recur2 hrec r key st h1]
    cases hs : mapStep m tbl recur r key st with
    | ok st2 =>
      simp only [hs, Res.ok_bind] at h ⊢
      exact ih st2 h
    | panic => rfl
    | stuck => rfl
    | timeout => rfl

theorem processRecursively_succ (m : Mutate) (tbl : TypeTable) :
    ∀ (fuel : Nat) (v : Value) (st : State),
      processRecursively m tbl fuel v st ≠ .timeout →
      processRecursively m tbl (fuel + 1) v st = processRecursively m tbl fuel v st := by
  intro fuel
  induction fuel with
  | zero => intro v st h; exact absurd rfl h
  | succ n ih =>
    intro v st h
    rw [processRecursively] at h ⊢
    rw [processRecursively]
    rcases hav : alreadyVisited tbl v st.visited with ⟨seen, vis⟩
    rw [hav] at h
    cases seen with
    | true => rfl
    | false =>
      simp only at h ⊢
      cases hk : Value.Kind tbl v with
      | Struct =>
        simp only [hk] at h ⊢
        unfold processStructKind at h ⊢
        cases v with
        | none => rfl
        | some r =>
          simp only at h ⊢
          split
          · rfl
          · rename_i hs
            simp only [hs, if_false] at h
            exact structLoop_congr m tbl _ _ ih r _ _ _ h
      | Map =>
        simp only [hk] at h ⊢
        unfold processMapKind at h ⊢
        cases v with
        | none => rfl
        | some r =>
          simp only at h ⊢
          split
          · rfl
          · rename_i hs
            simp only [hs, if_false] at h
            split
            · rfl
            · rename_i hs2
              simp only [hs2, if_false] at h
              cases hmk : r.MapKeys tbl st.heap with
              | ok keys =>
                simp only [hmk, Res.ok_bind] at h ⊢
                exact mapLoop_congr m tbl _ _ ih r _ _ h
              | panic => rfl
              | stuck => rfl
              | timeout => rfl
      | Ptr =>
        simp only [hk] at h ⊢
        cases he : Value.Elem tbl st.heap v with
        | ok e =>
          simp only [he, Res.ok_bind] at h ⊢
          exact ih _ _ h
        | panic => rfl
        | stuck => rfl
        | timeout => rfl
      | Interface =>
        simp only [hk] at h ⊢
        cases he : Value.Elem tbl st.heap v with
        | ok e =>
          simp only [he, Res.ok_bind] at h ⊢
          exact ih _ _ h
        | panic => rfl
        | stuck => rfl
        | timeout => rfl
      | Invalid => rfl
      | String => rfl
      | Int => rfl
      | Slice => rfl
      | Array => rfl
      | Other => rfl

theorem processRecursively_mono (m : Mutate) (tbl : TypeTable) (n k : Nat) (hle : n ≤ k)
    (v : Value) (st : State) (h : processRecursively m tbl n v st ≠ .timeout) :
    processRecursively m tbl k v st = processRecursively m tbl n v st := by
  induction hle with
  | refl => rfl
  | step _ ih =>
    rw [processRecursively_succ m tbl _ v st (by rw [ih]; exact h), ih]

/-! ## An induction principle for the traversal

A property of the state holds after `processRecursively` returns if it holds
before and every primitive step keeps it: marking a node as visited, a hook
assigned to a struct member, a hook assigned to a map entry. A property `P` of
the node can be recorded when an addressable node passes the check of
`alreadyVisited`; it is available again at the hooks of that node. -/

theorem RValue.canAddr_of_field_canSet (r : RValue) (i : Nat) (f : StructField)
    (h : (r.Field i f).CanSet = true) : r.CanAddr = true := by
  unfold RValue.CanSet RValue.CanAddr RValue.Field at h
  unfold RValue.CanAddr
  cases hs : r.src with
  | addr l => rfl
  | copy c p => simp [hs] at h

theorem RValue.canAddr_of_canSet (r : RValue) (h : r.CanSet = true) : r.CanAddr = true := by
  unfold RValue.CanSet at h
  simp at h
  exact h.1

section Invariant

variable (m : Mutate) (tbl : TypeTable) (I : State → Prop) (P : RValue → Prop)

theorem structStep_invariant (hfield : FieldHitOk m tbl I P)
    (recur : Value → State → Res State)
    (hrec : ∀ v st st2, I st → recur v st = .ok st2 → I st2)
    (r : RValue) (hP : r.CanAddr = true → P r) (i : Nat) (f : StructField)
    (hf : f ∈ structFields tbl r.typ) (st st2 : State) (hI : I st)
    (h : structStep m tbl recur r i f st = .ok st2) : I st2 := by
  unfold structStep at h
  by_cases hc : (r.Field i f).CanSet = true
  · simp only [hc, Bool.not_true, Bool.false_eq_true, if_false] at h
    obtain ⟨key, hk, h⟩ := Res.bind_eq_ok h
    cases hg : m.hook.Get key with
    | none =>
      simp only [hg] at h
      exact hrec _ _ _ hI h
    | some mh =>
      simp only [hg] at h
      obtain ⟨parent, hp, h⟩ := Res.bind_eq_ok h
      obtain ⟨current, hcur, h⟩ := Res.bind_eq_ok h
      obtain ⟨h2, hset, h⟩ := Res.bind_eq_ok h
      cases h
      exact hfield st r i f key mh parent current h2 hI
        (hP (RValue.canAddr_of_field_canSet r i f hc)) hf hc hk hg hp hcur hset
  · simp only [hc, Bool.not_false, if_true] at h
    cases h
    exact hI

theorem structLoop_invariant (hfield : FieldHitOk m tbl I P)
    (recur : Value → State → Res State)
    (hrec : ∀ v st st2, I st → recur v st = .ok st2 → I st2)
    (r : RValue) (hP : r.CanAddr = true → P r) :
    ∀ (fs : List StructField), (∀ f ∈ fs, f ∈ structFields tbl r.typ) →
      ∀ (i : Nat) (st st2 : State), I st → structLoop m tbl recur r i fs st = .ok st2 → I st2 := by
  intro fs
  induction fs with
  | nil =>
    intro _ i st st2 hI h
    unfold structLoop at h
    cases h
    exact hI
  | cons f fs ih =>
    intro hfs i st st2 hI h
    unfold structLoop at h
    obtain ⟨st1, h1, h⟩ := Res.bind_eq_ok h
    have hI1 := structStep_invariant m tbl I P hfield recur hrec r hP i f
      (hfs f (List.mem_cons_self _ _)) st st1 hI h1
    exact ih (fun g hg => hfs g (List.mem_cons_of_mem _ hg)) (i + 1) st1 st2 hI1 h

theorem mapStep_invariant (hentry : EntryHitOk m tbl I P)
    (recur : Value → State → Res State)
    (hrec : ∀ v st st2, I st → recur v st = .ok st2 → I st2)
    (r : RValue) (hP : P r) (hcs : r.CanSet = true) (st0 : State) (hI0 : I st0)
    (keys : List RValue) (hkeys : r.MapKeys tbl st0.heap = .ok keys) (key : RValue)
    (hkey : key ∈ keys) (st st2 : State) (hI : I st)
    (h : mapStep m tbl recur r key st = .ok st2) : I st2 := by
  unfold mapStep at h
  obtain ⟨value, hv, h⟩ := Res.bind_eq_ok h
  obtain ⟨k, hk, h⟩ := Res.bind_eq_ok h
  cases hg : m.hook.Get k with
  | none =>
    simp only [hg] at h
    exact hrec _ _ _ hI h
  | some mh =>
    simp only [hg] at h
    obtain ⟨current, hcur, h⟩ := Res.bind_eq_ok h
    obtain ⟨h2, hset, h⟩ := Res.bind_eq_ok h
    cases h
    exact hentry st0 st r keys key value k mh current h2 hI0 hI hP hcs hkeys hkey hv hk hg
      hcur hset

theorem mapLoop_invariant (hentry : EntryHitOk m tbl I P)
    (recur : Value → State → Res State)
    (hrec : ∀ v st st2, I st → recur v st = .ok st2 → I st2)
    (r : RValue) (hP : P r) (hcs : r.CanSet = true) (st0 : State) (hI0 : I st0)
    (keys : List RValue) (hkeys : r.MapKeys tbl st0.heap = .ok keys) :
    ∀ (ks : List RValue), (∀ key ∈ ks, key ∈ keys) →
      ∀ (st st2 : State), I st → mapLoop m tbl recur r ks st = .ok st2 → I st2 := by
  intro ks
  induction ks with
  | nil =>
    intro _ st st2 hI h
    unfold mapLoop at h
    cases h
    exact hI
  | cons key ks ih =>
    intro hks st st2 hI h
    unfold mapLoop at h
    obtain ⟨st1, h1, h⟩ := Res.bind_eq_ok h
    have hI1 := mapStep_invariant m tbl I P hentry recur hrec r hP hcs st0 hI0 keys hkeys key
      (hks key (List.mem_cons_self _ _)) st st1 hI h1
    exact ih (fun g hg => hks g (List.mem_cons_of_mem _ hg)) st1 st2 hI1 h

theorem processRecursively_invariant (hmark : MarkOk tbl I P)
    (hfield : FieldHitOk m tbl I P) (hentry : EntryHitOk m tbl I P) :
    ∀ (fuel : Nat) (v : Value) (st st2 : State), I st →
      processRecursively m tbl fuel v st = .ok st2 → I st2 := by
  intro fuel
  induction fuel with
  | zero => intro v st st2 _ h; simp [processRecursively] at h
  | succ n ih =>
    intro v st st2 hI h
    rw [processRecursively] at h
    rcases hav : alreadyVisited tbl v st.visited with ⟨seen, vis⟩
    rw [hav] at h
    cases seen with
    | true =>
      simp only at h
      cases h
      exact hI
    | false =>
      simp only at h
      obtain ⟨hI1, hP⟩ := hmark st v vis hI hav
      cases hk : Value.Kind tbl v with
      | Struct =>
        simp only [hk] at h
        unfold processStructKind at h
        cases v with
        | none => cases h; exact hI1
        | some r =>
          simp only at h
          split at h
          · cases h; exact hI1
          · exact structLoop_invariant m tbl I P hfield _ ih r (hP r rfl) _ (fun _ hf => hf)
              0 _ st2 hI1 h
      | Map =>
        simp only [hk] at h
        unfold processMapKind at h
        cases v with
        | none => cases h; exact hI1
        | some r =>
          simp only at h
          split at h
          · cases h; exact hI1
          · split at h
            · cases h; exact hI1
            · rename_i hcs
              simp only [Bool.not_eq_true, Bool.not_eq_false_eq_eq_true, not_not,
                Bool.not_eq_eq_eq_not, Bool.not_true] at hcs
              obtain ⟨keys, hkeys, h⟩ := Res.bind_eq_ok h
              have hcs2 : r.CanSet = true := by simpa using hcs
              exact mapLoop_invariant m tbl I P hentry _ ih r
                (hP r rfl (RValue.canAddr_of_canSet r hcs2)) hcs2 _ hI1 keys hkeys keys
                (fun _ hk => hk) _ st2 hI1 h
      | Ptr =>
        simp only [hk] at h
        obtain ⟨e, _, h⟩ := Res.bind_eq_ok h
        exact ih e _ st2 hI1 h
      | Interface =>
        simp only [hk] at h
        obtain ⟨e, _, h⟩ := Res.bind_eq_ok h
        exact ih e _ st2 hI1 h
      | Invalid => simp only [hk] at h; cases h; exact hI1
      | String => simp only [hk] at h; cases h; exact hI1
      | Int => simp only [hk] at h; cases h; exact hI1
      | Slice => simp only [hk] at h; cases h; exact hI1
      | Array => simp only [hk] at h; cases h; exact hI1
      | Other => simp only [hk] at h; cases h; exact hI1

end Invariant

/-! ## Termination -/

theorem typeStr_ref_of_le (tbl : TypeTable) (n : Nat) (h : tbl.length ≤ n) :
    typeStr tbl (.ref n) = typeStr tbl (.ref tbl.length) := by
  have h1 : tbl.getD n unknownType = unknownType := List.getD_eq_default _ _ h
  have h2 : tbl.getD tbl.length unknownType = unknownType := List.getD_eq_default _ _ (le_refl _)
  simp only [typeStr, h1, h2]

theorem addrString_mem (tbl : TypeTable) (t : GoType) : addrString tbl t ∈ allAddrStrings tbl := by
  unfold allAddrStrings allTypes
  rw [List.mem_map]
  cases t with
  | string => exact ⟨.string, by simp, rfl⟩
  | int => exact ⟨.int, by simp, rfl⟩
  | any => exact ⟨.any, by simp, rfl⟩
  | ref n =>
    by_cases hn : n < tbl.length + 1
    · exact ⟨.ref n, by simp [hn], rfl⟩
    · refine ⟨.ref tbl.length, by simp, ?_⟩
      unfold addrString
      rw [typeStr_ref_of_le tbl n (by omega)]

theorem length_allAddrStrings (tbl : TypeTable) : (allAddrStrings tbl).length = tbl.length + 4 := by
  simp [allAddrStrings, allTypes]

theorem filter_length_le_of_imp {α : Type} (p q : α → Bool) (hpq : ∀ a, p a = true → q a = true) :
    ∀ l : List α, (l.filter p).length ≤ (l.filter q).length := by
  intro l
  induction l with
  | nil => simp
  | cons a l ih =>
    by_cases hp : p a = true
    · simp [List.filter_cons, hp, hpq a hp, ih]
    · by_cases hq : q a = true
      · simp [List.filter_cons, hp, hq]
        omega
      · simp [List.filter_cons, hp, hq, ih]

theorem filter_length_lt_of_imp {α : Type} (p q : α → Bool) (hpq : ∀ a, p a = true → q a = true)
    (x : α) (hqx : q x = true) (hpx : ¬ p x = true) :
    ∀ l : List α, x ∈ l → (l.filter p).length < (l.filter q).length := by
  intro l
  induction l with
  | nil => intro h; simp at h
  | cons a l ih =>
    intro hx
    have hle := filter_length_le_of_imp p q hpq l
    rcases List.mem_cons.mp hx with rfl | hx
    · simp [List.filter_cons, hqx, hpx]
      omega
    · have := ih hx
      by_cases hp : p a = true
      · simp [List.filter_cons, hp, hpq a hp, this]
      · by_cases hq : q a = true
        · simp [List.filter_cons, hp, hq]
          omega
        · simp [List.filter_cons, hp, hq, this]

theorem unvisited_le_of_subset (tbl : TypeTable) (vis vis2 : List String) (h : vis ⊆ vis2) :
    unvisited tbl vis2 ≤ unvisited tbl vis := by
  unfold unvisited
  apply filter_length_le_of_imp
  intro a ha
  simp only [decide_eq_true_eq] at ha ⊢
  exact fun hm => ha (h hm)

theorem unvisited_cons_lt (tbl : TypeTable) (vis : List String) (t : GoType)
    (h : addrString tbl t ∉ vis) :
    unvisited tbl (addrString tbl t :: vis) < unvisited tbl vis := by
  unfold unvisited
  apply filter_length_lt_of_imp _ _ _ (addrString tbl t) _ _ _ (addrString_mem tbl t)
  · intro a ha
    simp only [decide_eq_true_eq] at ha ⊢
    exact fun hm => ha (List.mem_cons_of_mem _ hm)
  · simpa using h
  · simp

theorem unvisited_le (tbl : TypeTable) (vis : List String) : unvisited tbl vis ≤ tbl.length + 4 := by
  unfold unvisited
  rw [← length_allAddrStrings tbl]
  exact List.length_filter_le _ _

/-- What a negative answer of `alreadyVisited` tells. -/
theorem alreadyVisited_false (tbl : TypeTable) (v : Value) (vis vis2 : List String)
    (h : alreadyVisited tbl v vis = (false, vis2)) :
    (Value.CanAddr v = false ∧ vis2 = vis) ∨
      (∃ r, v = some r ∧ r.CanAddr = true ∧ addrString tbl r.typ ∉ vis ∧
        vis2 = addrString tbl r.typ :: vis) := by
  unfold alreadyVisited at h
  by_cases hc : Value.CanAddr v = true
  · simp only [hc, Bool.not_true, Bool.false_eq_true, if_false] at h
    cases v with
    | none => simp [Value.CanAddr] at hc
    | some r =>
      simp only at h
      by_cases hm : addrString tbl r.typ ∈ vis
      · simp [hm] at h
      · simp only [hm, if_false, Prod.mk.injEq, true_and] at h
        exact Or.inr ⟨r, rfl, by simpa [Value.CanAddr] using hc, hm, h.symm⟩
  · simp only [Bool.not_eq_true] at hc
    simp only [hc, Bool.not_false, if_true, Prod.mk.injEq, true_and] at h
    exact Or.inl ⟨hc, h.symm⟩

theorem alreadyVisited_subset (tbl : TypeTable) (v : Value) (vis vis2 : List String)
    (h : alreadyVisited tbl v vis = (false, vis2)) : vis ⊆ vis2 := by
  rcases alreadyVisited_false tbl v vis vis2 h with ⟨_, rfl⟩ | ⟨r, _, _, _, rfl⟩
  · exact fun _ hx => hx
  · exact fun _ hx => List.mem_cons_of_mem _ hx

/-- The set `visited` only grows. -/
theorem processRecursively_visited_subset (m : Mutate) (tbl : TypeTable) (fuel : Nat)
    (v : Value) (st st2 : State) (h : processRecursively m tbl fuel v st = .ok st2) :
    st.visited ⊆ st2.visited := by
  refine processRecursively_invariant m tbl (fun s => st.visited ⊆ s.visited) (fun _ => True)
    ?_ ?_ ?_ fuel v st st2 (fun _ hx => hx) h
  · intro s w vis hI hav
    exact ⟨fun _ hx => alreadyVisited_subset tbl w _ _ hav (hI hx), fun _ _ _ => trivial⟩
  · intro s r i f key mh parent current h2 hI _ _ _ _ _ _ _ _
    exact hI
  · intro s0 s r keys key value k mh current h2 _ hI _ _ _ _ _ _ _ _ _
    exact hI

theorem assignTo_ne_timeout (tbl : TypeTable) (h : Heap) (dst : GoType) (x : RValue) :
    assignTo tbl h dst x ≠ .timeout := by
  unfold assignTo
  repeat' split
  all_goals simp

theorem RValue.Interface_ne_timeout (tbl : TypeTable) (h : Heap) (v : RValue) :
    v.Interface tbl h ≠ .timeout := by
  unfold RValue.Interface
  repeat' split
  all_goals simp

theorem Value.InterfaceZ_ne_timeout (tbl : TypeTable) (h : Heap) (v : Value) :
    Value.Interface tbl h v ≠ .timeout := by
  cases v with
  | none => simp [Value.Interface]
  | some r => exact RValue.Interface_ne_timeout tbl h r

theorem RValue.Elem_ne_timeout (tbl : TypeTable) (h : Heap) (v : RValue) :
    v.Elem tbl h ≠ .timeout := by
  unfold RValue.Elem
  repeat' split
  all_goals simp

theorem Value.ElemZ_ne_timeout (tbl : TypeTable) (h : Heap) (v : Value) :
    Value.Elem tbl h v ≠ .timeout := by
  cases v with
  | none => simp [Value.Elem]
  | some r => exact RValue.Elem_ne_timeout tbl h r

theorem Res.bind_ne_timeout_of {α β : Type} {x : Res α} {f : α → Res β}
    (hx : x ≠ .timeout) (hf : ∀ a, f a ≠ .timeout) : x.bind f ≠ .timeout := by
  cases x with
  | ok a => exact hf a
  | panic => simp
  | stuck => simp
  | timeout => exact absurd rfl hx

theorem RValue.Set_ne_timeout (tbl : TypeTable) (h : Heap) (v : RValue) (x : Value) :
    v.Set tbl h x ≠ .timeout := by
  unfold RValue.Set
  repeat' split
  all_goals try simp
  apply Res.bind_ne_timeout_of (assignTo_ne_timeout _ _ _ _)
  intro a
  split <;> simp

theorem RValue.MapKeys_ne_timeout (tbl : TypeTable) (h : Heap) (v : RValue) :
    v.MapKeys tbl h ≠ .timeout := by
  unfold RValue.MapKeys
  repeat' split
  all_goals simp

theorem RValue.MapIndex_ne_timeout (tbl : TypeTable) (h : Heap) (v key : RValue) :
    v.MapIndex tbl h key ≠ .timeout := by
  unfold RValue.MapIndex
  repeat' split
  all_goals simp

theorem RValue.SetMapIndex_ne_timeout (tbl : TypeTable) (h : Heap) (v key : RValue) (x : Value) :
    v.SetMapIndex tbl h key x ≠ .timeout := by
  unfold RValue.SetMapIndex
  repeat' split
  all_goals try simp
  all_goals
    apply Res.bind_ne_timeout_of (assignTo_ne_timeout _ _ _ _)
    intro a
    simp

theorem fieldKey_ne_timeout (m : Mutate) (tbl : TypeTable) (h : Heap) (v : RValue) (name : String) :
    fieldKey m tbl h v name ≠ .timeout := by
  unfold fieldKey
  split
  · cases hi : v.Interface tbl h with
    | ok o => simp
    | panic => simp
    | stuck => simp
    | timeout => exact absurd hi (RValue.Interface_ne_timeout tbl h v)
  · simp

theorem structStep_ne_timeout (m : Mutate) (tbl : TypeTable) (recur : Value → State → Res State)
    (r : RValue) (i : Nat) (f : StructField) (st : State)
    (hrec : (r.Field i f).CanSet = true → recur (some (r.Field i f)) st ≠ .timeout) :
    structStep m tbl recur r i f st ≠ .timeout := by
  unfold structStep
  by_cases hc : (r.Field i f).CanSet = true
  · simp only [hc, Bool.not_true, Bool.false_eq_true, if_false]
    apply Res.bind_ne_timeout_of (fieldKey_ne_timeout _ _ _ _ _)
    intro key
    cases hg : m.hook.Get key with
    | none => exact hrec hc
    | some mh =>
      simp only
      apply Res.bind_ne_timeout_of (RValue.Interface_ne_timeout _ _ _)
      intro parent
      apply Res.bind_ne_timeout_of (RValue.Interface_ne_timeout _ _ _)
      intro current
      apply Res.bind_ne_timeout_of (RValue.Set_ne_timeout _ _ _ _)
      intro h2
      simp
  · simp [hc]

theorem structStep_visited_subset (m : Mutate) (tbl : TypeTable)
    (recur : Value → State → Res State)
    (hvis : ∀ v st st2, recur v st = .ok st2 → st.visited ⊆ st2.visited)
    (r : RValue) (i : Nat) (f : StructField) (st st2 : State)
    (h : structStep m tbl recur r i f st = .ok st2) : st.visited ⊆ st2.visited := by
  unfold structStep at h
  by_cases hc : (r.Field i f).CanSet = true
  · simp only [hc, Bool.not_true, Bool.false_eq_true, if_false] at h
    obtain ⟨key, _, h⟩ := Res.bind_eq_ok h
    cases hg : m.hook.Get key with
    | none =>
      simp only [hg] at h
      exact hvis _ _ _ h
    | some mh =>
      simp only [hg] at h
      obtain ⟨parent, _, h⟩ := Res.bind_eq_ok h
      obtain ⟨current, _, h⟩ := Res.bind_eq_ok h
      obtain ⟨h2, _, h⟩ := Res.bind_eq_ok h
      cases h
      exact fun _ hx => hx
  · simp only [hc, Bool.not_false, if_true] at h
    cases h
    exact fun _ hx => hx

theorem structLoop_ne_timeout (m : Mutate) (tbl : TypeTable) (recur : Value → State → Res State)
    (r : RValue) (vis : List String)
    (hrec : ∀ i f st, (r.Field i f).CanSet = true → vis ⊆ st.visited →
      recur (some (r.Field i f)) st ≠ .timeout)
    (hvis : ∀ v st st2, recur v st = .ok st2 → st.visited ⊆ st2.visited) :
    ∀ (fs : List StructField) (i : Nat) (st : State), vis ⊆ st.visited →
      structLoop m tbl recur r i fs st ≠ .timeout := by
  intro fs
  induction fs with
  | nil => intro i st _; simp [structLoop]
  | cons f fs ih =>
    intro i st hs
    unfold structLoop
    cases h1 : structStep m tbl recur r i f st with
    | ok st1 =>
      simp only [Res.ok_bind]
      exact ih (i + 1) st1
        (fun _ hx => structStep_visited_subset m tbl recur hvis r i f st st1 h1 (hs hx))
    | panic => simp
    | stuck => simp
    | timeout =>
      exact absurd h1 (structStep_ne_timeout m tbl recur r i f st (fun hc => hrec i f st hc hs))

theorem mapStep_ne_timeout (m : Mutate) (tbl : TypeTable) (recur : Value → State → Res State)
    (r key : RValue) (st : State)
    (hrec : ∀ value, r.MapIndex tbl st.heap key = .ok value → recur value st ≠ .timeout) :
    mapStep m tbl recur r key st ≠ .timeout := by
  unfold mapStep
  cases hv : r.MapIndex tbl st.heap key with
  | ok value =>
    simp only [Res.ok_bind]
    apply Res.bind_ne_timeout_of (RValue.Interface_ne_timeout _ _ _)
    intro k
    cases hg : m.hook.Get k with
    | none => exact hrec value hv
    | some mh =>
      simp only
      apply Res.bind_ne_timeout_of (Value.InterfaceZ_ne_timeout _ _ _)
      intro current
      apply Res.bind_ne_timeout_of (RValue.SetMapIndex_ne_timeout _ _ _ _ _)
      intro h2
      simp
  | panic => simp
  | stuck => simp
  | timeout => exact absurd hv (RValue.MapIndex_ne_timeout _ _ _ _)

theorem mapStep_visited_subset (m : Mutate) (tbl : TypeTable)
    (recur : Value → State → Res State)
    (hvis : ∀ v st st2, recur v st = .ok st2 → st.visited ⊆ st2.visited)
    (r key : RValue) (st st2 : State)
    (h : mapStep m tbl recur r key st = .ok st2) : st.visited ⊆ st2.visited := by
  unfold mapStep at h
  obtain ⟨value, _, h⟩ := Res.bind_eq_ok h
  obtain ⟨k, _, h⟩ := Res.bind_eq_ok h
  cases hg : m.hook.Get k with
  | none =>
    simp only [hg] at h
    exact hvis _ _ _ h
  | some mh =>
    simp only [hg] at h
    obtain ⟨current, _, h⟩ := Res.bind_eq_ok h
    obtain ⟨h2, _, h⟩ := Res.bind_eq_ok h
    cases h
    exact fun _ hx => hx

theorem mapLoop_ne_timeout (m : Mutate) (tbl : TypeTable) (recur : Value → State → Res State)
    (r : RValue) (vis : List String)
    (hrec : ∀ key value st, r.MapIndex tbl st.heap key = .ok value → vis ⊆ st.visited →
      recur value st ≠ .timeout)
    (hvis : ∀ v st st2, recur v st = .ok st2 → st.visited ⊆ st2.visited) :
    ∀ (keys : List RValue) (st : State), vis ⊆ st.visited →
      mapLoop m tbl recur r keys st ≠ .timeout := by
  intro keys
  induction keys with
  | nil => intro st _; simp [mapLoop]
  | cons key keys ih =>
    intro st hs
    unfold mapLoop
    cases h1 : mapStep m tbl recur r key st with
    | ok st1 =>
      simp only [Res.ok_bind]
      exact ih st1
        (fun _ hx => mapStep_visited_subset m tbl recur hvis r key st st1 h1 (hs hx))
    | panic => simp
    | stuck => simp
    | timeout =>
      exact absurd h1 (mapStep_ne_timeout m tbl recur r key st (fun v hv => hrec key v st hv hs))

theorem levels_le (tbl : TypeTable) (v : Value) : levels tbl v ≤ 3 := by
  unfold levels
  cases v with
  | none => simp
  | some r => simp only; split <;> [omega; (split <;> omega)]

theorem levels_of_canAddr (tbl : TypeTable) (r : RValue) (h : r.CanAddr = true) :
    levels tbl (some r) = 1 := by
  simp [levels, h]

theorem RValue.MapIndex_levels (tbl : TypeTable) (h : Heap) (r key : RValue) (value : Value)
    (_hv : r.MapIndex tbl h key = .ok value) : levels tbl value ≤ 3 :=
  levels_le tbl value

theorem RValue.Elem_levels (tbl : TypeTable) (h : Heap) (r : RValue) (e : Value)
    (he : r.Elem tbl h = .ok e) :
    (kindOf tbl r.typ = .Ptr ∧ levels tbl e = 1) ∨
      (kindOf tbl r.typ = .Interface ∧ levels tbl e ≤ 2) := by
  unfold RValue.Elem at he
  split at he
  · rename_i hk
    left
    refine ⟨hk, ?_⟩
    split at he
    · cases he; rfl
    · cases he; simp [levels, RValue.CanAddr]
    · cases he
  · rename_i hk
    right
    refine ⟨hk, ?_⟩
    split at he
    · cases he; simp [levels]
    · split at he
      · cases he
      · rename_i hni
        cases he
        simp [levels, RValue.CanAddr, hni]
    · cases he
  · cases he

/-- With a budget of three levels for every string still outside `visited`, and
the levels the Value itself needs, `processRecursively` does not run out. -/
theorem processRecursively_ne_timeout (m : Mutate) (tbl : TypeTable) :
    ∀ (fuel : Nat) (v : Value) (st : State),
      3 * unvisited tbl st.visited + levels tbl v ≤ fuel →
      processRecursively m tbl fuel v st ≠ .timeout := by
  intro fuel
  induction fuel with
  | zero =>
    intro v st h
    have : 1 ≤ levels tbl v := by
      unfold levels
      cases v with
      | none => simp
      | some r => simp only; split <;> [omega; (split <;> omega)]
    omega
  | succ n ih =>
    intro v st hb
    rw [processRecursively]
    rcases hav : alreadyVisited tbl v st.visited with ⟨seen, vis⟩
    cases seen with
    | true => simp
    | false =>
      simp only
      -- the budget left for the children of `v`
      have hbudget : (Value.CanAddr v = true → 3 * unvisited tbl vis + 3 ≤ n) ∧
          (Value.CanAddr v = false → vis = st.visited ∧
            3 * unvisited tbl vis + levels tbl v ≤ n + 1) := by
        rcases alreadyVisited_false tbl v _ _ hav with ⟨hc, rfl⟩ | ⟨r, rfl, hc, hn, rfl⟩
        · exact ⟨fun h => by simp [hc] at h, fun _ => ⟨rfl, hb⟩⟩
        · have hlt := unvisited_cons_lt tbl st.visited r.typ hn
          rw [levels_of_canAddr tbl r hc] at hb
          refine ⟨fun _ => by omega, fun h => ?_⟩
          simp [Value.CanAddr, hc] at h
      have hsub : ∀ (s : State), vis ⊆ s.visited → unvisited tbl s.visited ≤ unvisited tbl vis :=
        fun s hs => unvisited_le_of_subset tbl _ _ hs
      have hvis : ∀ w s s2, processRecursively m tbl n w s = .ok s2 → s.visited ⊆ s2.visited :=
        fun w s s2 h => processRecursively_visited_subset m tbl n w s s2 h
      cases hk : Value.Kind tbl v with
      | Struct =>
        simp only
        unfold processStructKind
        cases v with
        | none => simp
        | some r =>
          simp only
          split
          · simp
          · apply structLoop_ne_timeout m tbl _ r vis _ hvis _ _ _ (fun _ hx => hx)
            intro i f s hc hs
            apply ih
            have hr := RValue.canAddr_of_field_canSet r i f hc
            have h1 := hbudget.1 (by simpa [Value.CanAddr] using hr)
            have h2 := hsub s hs
            have h3 := levels_le tbl (some (r.Field i f))
            omega
      | Map =>
        simp only
        unfold processMapKind
        cases v with
        | none => simp
        | some r =>
          simp only
          split
          · simp
          · split
            · simp
            · rename_i hcs
              have hcs2 : r.CanSet = true := by simpa using hcs
              have hr := RValue.canAddr_of_canSet r hcs2
              apply Res.bind_ne_timeout_of (RValue.MapKeys_ne_timeout _ _ _)
              intro keys
              apply mapLoop_ne_timeout m tbl _ r vis _ hvis _ _ (fun _ hx => hx)
              intro key value s _ hs
              apply ih
              have h1 := hbudget.1 (by simpa [Value.CanAddr] using hr)
              have h2 := hsub s hs
              have h3 := levels_le tbl value
              omega
      | Ptr =>
        simp only
        cases v with
        | none => simp [Value.Kind] at hk
        | some r =>
          cases he : Value.Elem tbl st.heap (some r) with
          | ok e =>
            simp only [Res.ok_bind]
            apply ih
            simp only
            have hk2 : kindOf tbl r.typ = .Ptr := hk
            rcases RValue.Elem_levels tbl st.heap r e he with ⟨_, hl⟩ | ⟨hi, _⟩
            · by_cases hc : r.CanAddr = true
              · have h1 := hbudget.1 (by simpa [Value.CanAddr] using hc)
                omega
              · have h1 := hbudget.2 (by simpa [Value.CanAddr] using hc)
                have : levels tbl (some r) = 2 := by simp [levels, hc, hk2]
                omega
            · rw [hk2] at hi
              cases hi
          | panic => simp
          | stuck => simp
          | timeout => exact absurd he (Value.ElemZ_ne_timeout _ _ _)
      | Interface =>
        simp only
        cases v with
        | none => simp [Value.Kind] at hk
        | some r =>
          cases he : Value.Elem tbl st.heap (some r) with
          | ok e =>
            simp only [Res.ok_bind]
            apply ih
            simp only
            have hk2 : kindOf tbl r.typ = .Interface := hk
            rcases RValue.Elem_levels tbl st.heap r e he with ⟨hi, _⟩ | ⟨_, hl⟩
            · rw [hk2] at hi
              cases hi
            · by_cases hc : r.CanAddr = true
              · have h1 := hbudget.1 (by simpa [Value.CanAddr] using hc)
                omega
              · have h1 := hbudget.2 (by simpa [Value.CanAddr] using hc)
                have : levels tbl (some r) = 3 := by simp [levels, hc, hk2]
                omega
          | panic => simp
          | stuck => simp
          | timeout => exact absurd he (Value.ElemZ_ne_timeout _ _ _)
      | Invalid => simp
      | String => simp
      | Int => simp
      | Slice => simp
      | Array => simp
      | Other => simp

/-- The budget of `Execute` is never used up. -/
theorem Execute_ne_timeout (m : Mutate) (tbl : TypeTable) (h : Heap) (data : Any) :
    Execute m tbl h data ≠ .timeout := by
  unfold Execute
  apply processRecursively_ne_timeout
  have h1 := unvisited_le tbl (initState h).visited
  have h2 := levels_le tbl (ValueOf data)
  unfold depthBound
  omega

/-- An outcome computed with a smaller budget is the outcome of `Execute`. -/
theorem Execute_of_fuel (m : Mutate) (tbl : TypeTable) (h : Heap) (data : Any) (n : Nat)
    (r : Res State) (hr : processRecursively m tbl n (ValueOf data) (initState h) = r)
    (hne : r ≠ .timeout) : Execute m tbl h data = r := by
  unfold Execute
  rcases Nat.le_total n (depthBound tbl) with hle | hle
  · rw [processRecursively_mono m tbl n _ hle _ _ (by rw [hr]; exact hne), hr]
  · rw [← hr]
    exact (processRecursively_mono m tbl _ n hle _ _ (Execute_ne_timeout m tbl h data)).symm

/-! ## C1: the record of the test -/

/-- C1. For all strings `u` and `p` and every `FieldMatch` engine whose registry
maps `"Password"` to `PasswordDefaultMutator` (and has no hook under the other
two member names): `Execute(&cc)` on the record of the test, with
`cc.Head = &cc`, `cc.Username = u` and `cc.Password = p`, returns, and afterwards
`cc.Username` is `u`, `cc.Password` is `"********"` and `cc.Head` is still
`&cc`. -/
theorem C1_self_reference_masked (u p : String) (mc : MutatorChain)
    (hP : mc.Get (goString "Password") = some PasswordDefaultMutator)
    (hH : mc.Get (goString "Head") = none) (hU : mc.Get (goString "Username") = none) :
    ∃ st, Execute ⟨mc, FieldMatch⟩ ccTable (ccHeap u p) ccRoot = .ok st ∧
      st.heap = ccHeap u "********" := by
  simp only [goString] at hP hH hU
  have h4 : ∃ st, processRecursively ⟨mc, FieldMatch⟩ ccTable 4 (ValueOf ccRoot)
      (initState (ccHeap u p)) = .ok st ∧ st.heap = ccHeap u "********" := by
    simp [processRecursively, ccTable, ccHeap, ccRoot, initState, ValueOf, alreadyVisited,
      Value.CanAddr, RValue.CanAddr, Value.Kind, kindOf, unknownType, Value.Elem, RValue.Elem,
      RValue.load, Val.sub, elemOf, shapeOf, noteExpanded, addrString, typeStr,
      processStructKind, structFields, structLoop, structStep, RValue.Field, RValue.CanSet,
      fieldKey, FieldMatch, TypeAndFieldMatch, hP, hH, hU, Heap.load, RValue.Interface,
      PasswordDefaultMutator, goString, RValue.Set, assignTo, Heap.store, Val.update]
  obtain ⟨st, hst, hheap⟩ := h4
  exact ⟨st, Execute_of_fuel _ _ _ _ 4 _ hst (by simp), hheap⟩

/-- The registry of the test satisfies the hypotheses of C1, and the test's
values give the test's assertions. -/
theorem C1_self_reference_masked_witness :
    (testChain.Get (goString "Password") = some PasswordDefaultMutator ∧
      testChain.Get (goString "Head") = none ∧ testChain.Get (goString "Username") = none) ∧
    ∃ st, Execute ⟨testChain, FieldMatch⟩ ccTable (ccHeap "admin" "Master#123") ccRoot = .ok st ∧
      st.heap = ccHeap "admin" "********" :=
  ⟨⟨rfl, rfl, rfl⟩, C1_self_reference_masked "admin" "Master#123" testChain rfl rfl rfl⟩

/-! ## C2: locations of one type are taken for one another -/

/-- C2 (the code at the failing inputs). With the registry of the test,
`Execute(&o)` on `o := Outer{A: Inner{"a"}, B: Inner{"b"}}` masks `o.A.Password`
and leaves `o.B.Password` as it was: the member `B` is a location that was never
reached, but `alreadyVisited` finds the string of `A`, `"<*main.Inner Value>"`,
in the set. In the same way `Execute(&n1)` on the chain `n1 -> n2` masks
`n1.Password` only. -/
theorem C2_same_type_taken_as_visited :
    (∃ st, Execute testMutator outerTable outerHeap outerRoot = .ok st ∧
      st.heap.load ⟨0, [0, 0]⟩ = some (.str "********") ∧
      st.heap.load ⟨0, [1, 0]⟩ = some (.str "b") ∧
      st.visited = ["<*main.Inner Value>", "<*main.Outer Value>"]) ∧
    (∃ st, Execute testMutator nodeTable nodeHeap nodeRoot = .ok st ∧
      st.heap.load ⟨0, [0]⟩ = some (.str "********") ∧
      st.heap.load ⟨1, [0]⟩ = some (.str "b")) := by
  constructor
  · exact ⟨_, Execute_of_fuel _ _ _ _ 4 _ rfl (by simp), rfl, rfl, rfl⟩
  · exact ⟨_, Execute_of_fuel _ _ _ _ 4 _ rfl (by simp), rfl, rfl⟩

/-! ## C3: a map of strings -/

@[simp] theorem Val.beq_str (a b : String) : Val.beq (.str a) (.str b) = (a == b) := by
  simp [Val.beq]

theorem strMapObj_find (pre rest : List (String × String)) (k v : String)
    (hk : ∀ e ∈ pre, e.1 ≠ k) :
    MapObj.find (strMapObj (pre ++ (k, v) :: rest)) (.str k) = some (.str v) := by
  induction pre with
  | nil => simp [strMapObj, MapObj.find]
  | cons e pre ih =>
    have h1 : e.1 ≠ k := hk e (List.mem_cons_self _ _)
    have h2 := ih (fun e2 he2 => hk e2 (List.mem_cons_of_mem _ he2))
    have h3 : strMapObj ((e :: pre) ++ (k, v) :: rest) =
        (Val.str e.1, Val.str e.2) :: strMapObj (pre ++ (k, v) :: rest) := rfl
    rw [h3, MapObj.find]
    simp [h1, h2]

theorem strMapObj_assign (pre rest : List (String × String)) (k v w : String)
    (hk : ∀ e ∈ pre, e.1 ≠ k) :
    MapObj.assign (strMapObj (pre ++ (k, v) :: rest)) (.str k) (.str w) =
      strMapObj (pre ++ (k, w) :: rest) := by
  induction pre with
  | nil => simp [strMapObj, MapObj.assign]
  | cons e pre ih =>
    have h1 : e.1 ≠ k := hk e (List.mem_cons_self _ _)
    have h2 := ih (fun e2 he2 => hk e2 (List.mem_cons_of_mem _ he2))
    have h3 : strMapObj ((e :: pre) ++ (k, v) :: rest) =
        (Val.str e.1, Val.str e.2) :: strMapObj (pre ++ (k, v) :: rest) := rfl
    have h4 : strMapObj ((e :: pre) ++ (k, w) :: rest) =
        (Val.str e.1, Val.str e.2) :: strMapObj (pre ++ (k, w) :: rest) := rfl
    rw [h3, h4, MapObj.assign]
    simp [h1, h2]

/-- The loop of `processMapKind` over the keys of `rest`, when the entries
before them are already done. -/
theorem strMap_loop (mc : MutatorChain) (mt : MutateType)
    (recur : Value → State → Res State)
    (hrec : ∀ e ro st, recur (some ⟨.string, .copy e [], ro⟩) st = .ok st)
    (hP : mc.Get (goString "password") = some PasswordDefaultMutator) :
    ∀ (rest pre : List (String × String)) (st : State),
      (∀ e ∈ rest, e.1 ≠ "password" → mc.Get (goString e.1) = none) →
      ((pre ++ rest).map Prod.fst).Nodup →
      st.heap = strMapHeap (pre ++ rest) →
      ∃ st2, mapLoop ⟨mc, mt⟩ strMapTable recur ⟨.ref 0, .addr ⟨0, []⟩, false⟩
          (rest.map fun e => ⟨.string, .copy (.str e.1) [], false⟩) st = .ok st2 ∧
        st2.heap = strMapHeap (pre ++ maskPassword rest) := by
  intro rest
  induction rest with
  | nil =>
    intro pre st _ _ hh
    exact ⟨st, by simp [mapLoop], by simpa [maskPassword] using hh⟩
  | cons e rest ih =>
    intro pre st hreg hnd hh
    obtain ⟨k, v⟩ := e
    have hpre : ∀ e2 ∈ pre, e2.1 ≠ k := by
      intro e2 he2 heq
      rw [List.map_append, List.nodup_append] at hnd
      exact hnd.2.2 (List.mem_map_of_mem Prod.fst he2) (by simp [heq])
    have hfind := strMapObj_find pre rest k v hpre
    simp only [List.map_cons, mapLoop]
    by_cases hk : k = "password"
    · -- the hook masks the value
      have hget : mc.Get (some ⟨.string, .str k⟩) = some PasswordDefaultMutator := by
        rw [hk]; exact hP
      have hstep : mapStep ⟨mc, mt⟩ strMapTable recur ⟨.ref 0, .addr ⟨0, []⟩, false⟩
          ⟨.string, .copy (.str k) [], false⟩ st =
            .ok { st with heap := strMapHeap (pre ++ (k, "********") :: rest),
                          calls := st.calls ++ [⟨goString k, none, goString v, goString "********"⟩] } := by
        simp [mapStep, RValue.MapIndex, RValue.load, hh, strMapHeap, Heap.load, Val.sub,
          Heap.entries, hfind, RValue.Interface, kindOf, hget, Value.Interface, elemOf, shapeOf,
          strMapTable, PasswordDefaultMutator, goString, ValueOf, RValue.SetMapIndex, assignTo,
          strMapObj_assign pre rest k v "********" hpre]
      rw [hstep, Res.ok_bind]
      have := ih (pre ++ [(k, "********")])
        { st with heap := strMapHeap (pre ++ (k, "********") :: rest),
                  calls := st.calls ++ [⟨goString k, none, goString v, goString "********"⟩] }
        (fun e2 he2 => hreg e2 (List.mem_cons_of_mem _ he2))
        (by simpa [List.map_append] using hnd) (by simp)
      obtain ⟨st2, h1, h2⟩ := this
      refine ⟨st2, h1, ?_⟩
      rw [h2]
      simp [maskPassword, hk]
    · have hget : mc.Get (some ⟨.string, .str k⟩) = none :=
        hreg (k, v) (List.mem_cons_self _ _) hk
      have hstep : mapStep ⟨mc, mt⟩ strMapTable recur ⟨.ref 0, .addr ⟨0, []⟩, false⟩
          ⟨.string, .copy (.str k) [], false⟩ st = .ok st := by
        simp [mapStep, RValue.MapIndex, RValue.load, hh, strMapHeap, Heap.load, Val.sub,
          Heap.entries, hfind, RValue.Interface, kindOf, hget, elemOf, shapeOf,
          strMapTable, hrec]
      rw [hstep, Res.ok_bind]
      have := ih (pre ++ [(k, v)]) st
        (fun e2 he2 => hreg e2 (List.mem_cons_of_mem _ he2))
        (by simpa [List.map_append] using hnd) (by simpa using hh)
      obtain ⟨st2, h1, h2⟩ := this
      refine ⟨st2, h1, ?_⟩
      rw [h2]
      simp [maskPassword, hk]

/-- A string that is not addressable is a leaf. -/
theorem processRecursively_string_copy (m : Mutate) (tbl : TypeTable) (n : Nat) (e : Val)
    (ro : Bool) (st : State) :
    processRecursively m tbl (n + 1) (some ⟨.string, .copy e [], ro⟩) st = .ok st := by
  simp [processRecursively, alreadyVisited, Value.CanAddr, RValue.CanAddr, Value.Kind, kindOf,
    noteExpanded]

/-- C3. For every `map[string]string` `cm` (a list of entries with pairwise
different keys) passed by pointer, and every engine whose registry maps
`"password"` to `PasswordDefaultMutator` and has no hook for any other key of
`cm`: `Execute(&cm)` returns, and afterwards the map has the same keys, the
entry of `"password"` (if there is one) holds `"********"`, and every other
entry holds its original value. A nil map stays nil. -/
theorem C3_string_map_masked (cm : List (String × String)) (mc : MutatorChain)
    (mt : MutateType) (hnd : (cm.map Prod.fst).Nodup)
    (hP : mc.Get (goString "password") = some PasswordDefaultMutator)
    (hreg : ∀ e ∈ cm, e.1 ≠ "password" → mc.Get (goString e.1) = none) :
    (∃ st, Execute ⟨mc, mt⟩ strMapTable (strMapHeap cm) strMapRoot = .ok st ∧
      st.heap = strMapHeap (maskPassword cm)) ∧
    (∃ st, Execute ⟨mc, mt⟩ strMapTable ⟨[.map none], []⟩ strMapRoot = .ok st ∧
      st.heap = ⟨[.map none], []⟩) := by
  constructor
  · obtain ⟨st2, h1, h2⟩ := strMap_loop mc mt (processRecursively ⟨mc, mt⟩ strMapTable 1)
      (fun e ro st => processRecursively_string_copy _ _ 0 e ro st) hP cm []
      { heap := strMapHeap cm, visited := ["<*map[string]string Value>"], calls := [],
        expanded := [(.ref 0, ⟨0, []⟩)] } hreg (by simpa using hnd) (by simp)
    refine ⟨st2, Execute_of_fuel _ _ _ _ 3 _ ?_ (by simp), by simpa using h2⟩
    rw [← h1]
    simp [processRecursively, strMapRoot, initState, ValueOf, alreadyVisited, Value.CanAddr,
      RValue.CanAddr, Value.Kind, kindOf, unknownType, Value.Elem, RValue.Elem, RValue.load,
      Val.sub, elemOf, shapeOf, noteExpanded, addrString, typeStr, processMapKind,
      RValue.CanSet, RValue.MapKeys, Heap.load, Heap.entries, keyOf, strMapTable, strMapHeap,
      strMapObj, Function.comp_def]
  · refine ⟨_, Execute_of_fuel _ _ _ _ 3 _ rfl (by simp), rfl⟩

/-- The map of the test: the hypotheses of C3 hold for it, and `Execute(&cm)`
gives the test's assertions. -/
theorem C3_string_map_masked_witness :
    (∃ st, Execute testMutator strMapTable
        (strMapHeap [("username", "admin"), ("password", "admin")]) strMapRoot = .ok st ∧
      st.heap = strMapHeap [("username", "admin"), ("password", "********")]) ∧
    (∃ st, Execute testMutator strMapTable ⟨[.map none], []⟩ strMapRoot = .ok st ∧
      st.heap = ⟨[.map none], []⟩) :=
  C3_string_map_masked [("username", "admin"), ("password", "admin")] testChain FieldMatch
    (by decide) rfl
    (by
      intro e he hne
      simp only [List.mem_cons, List.mem_singleton, List.not_mem_nil, or_false] at he
      rcases he with rfl | rfl
      · rfl
      · exact absurd rfl hne)

/-! ## C4: termination, and one expansion per node -/

theorem noteExpanded_of_not_canAddr (v : Value) (ex : List (GoType × Loc))
    (h : Value.CanAddr v = false) : noteExpanded v ex = ex := by
  cases v with
  | none => rfl
  | some r =>
    obtain ⟨t, src, ro⟩ := r
    cases src with
    | addr l => simp [Value.CanAddr, RValue.CanAddr] at h
    | copy c p => rfl

theorem noteExpanded_of_canAddr (r : RValue) (ex : List (GoType × Loc))
    (h : r.CanAddr = true) : ∃ l, r.src = .addr l ∧ noteExpanded (some r) ex = (r.typ, l) :: ex := by
  obtain ⟨t, src, ro⟩ := r
  cases src with
  | addr l => exact ⟨l, rfl, rfl⟩
  | copy c p => simp [RValue.CanAddr] at h

/-- Every expanded node has its string in `visited`, and no two expanded nodes
have the same string. -/
theorem processRecursively_expanded (m : Mutate) (tbl : TypeTable) (fuel : Nat) (v : Value)
    (st st2 : State)
    (hI : (st.expanded.map fun e => addrString tbl e.1).Nodup ∧
      ∀ e ∈ st.expanded, addrString tbl e.1 ∈ st.visited)
    (h : processRecursively m tbl fuel v st = .ok st2) :
    (st2.expanded.map fun e => addrString tbl e.1).Nodup ∧
      ∀ e ∈ st2.expanded, addrString tbl e.1 ∈ st2.visited := by
  refine processRecursively_invariant m tbl
    (fun s => (s.expanded.map fun e => addrString tbl e.1).Nodup ∧
      ∀ e ∈ s.expanded, addrString tbl e.1 ∈ s.visited) (fun _ => True)
    ?_ ?_ ?_ fuel v st st2 hI h
  · intro s w vis hs hav
    refine ⟨?_, fun _ _ _ => trivial⟩
    rcases alreadyVisited_false tbl w _ _ hav with ⟨hc, rfl⟩ | ⟨r, rfl, hc, hn, rfl⟩
    · simp only [noteExpanded_of_not_canAddr w _ hc]
      exact hs
    · obtain ⟨l, _, hl⟩ := noteExpanded_of_canAddr r s.expanded hc
      simp only [hl, List.map_cons, List.nodup_cons, List.mem_cons, forall_eq_or_imp,
        true_or, true_and]
      refine ⟨⟨?_, hs.1⟩, fun e he => Or.inr (hs.2 e he)⟩
      intro hmem
      obtain ⟨e, he, heq⟩ := List.mem_map.mp hmem
      exact hn (heq ▸ hs.2 e he)
  · intro s r i f key mh parent current h2 hs _ _ _ _ _ _ _ _
    exact hs
  · intro s0 s r keys key value k mh current h2 _ hs _ _ _ _ _ _ _ _ _
    exact hs

/-- C4. For every type table, memory, registry of hooks and argument, `Execute`
terminates: its recursion budget is never used up, and every larger budget
gives the same outcome. When it returns, no two nodes it expanded (the
addressable nodes that passed the check of `alreadyVisited`) are the same, so it
expanded no more nodes than there are addressable locations; in fact no two of
them have the same formatted type name, and there are at most as many as type
names. -/
theorem C4_execute_terminates (m : Mutate) (tbl : TypeTable) (h : Heap) (data : Any) :
    Execute m tbl h data ≠ .timeout ∧
    (∀ n, depthBound tbl ≤ n →
      processRecursively m tbl n (ValueOf data) (initState h) = Execute m tbl h data) ∧
    (∀ st, Execute m tbl h data = .ok st →
      st.expanded.Nodup ∧ (st.expanded.map fun e => addrString tbl e.1).Nodup ∧
      st.expanded.length ≤ tbl.length + 4) := by
  refine ⟨Execute_ne_timeout m tbl h data, ?_, ?_⟩
  · intro n hn
    exact processRecursively_mono m tbl _ n hn _ _ (Execute_ne_timeout m tbl h data)
  · intro st hst
    have hex := processRecursively_expanded m tbl _ _ _ st
      (by simp [initState]) hst
    refine ⟨List.Nodup.of_map _ hex.1, hex.1, ?_⟩
    have hsub : (st.expanded.map fun e => addrString tbl e.1) ⊆ allAddrStrings tbl := by
      intro s hs
      obtain ⟨e, _, rfl⟩ := List.mem_map.mp hs
      exact addrString_mem tbl e.1
    have := (List.Nodup.subperm hex.1 hsub).length_le
    rw [length_allAddrStrings, List.length_map] at this
    exact this

/-! ## C6: a hooked member is replaced and not traversed -/

theorem RValue.field_canSet_false (r : RValue) (i : Nat) (f : StructField)
    (h : f.exported = false ∨ r.CanAddr = false) : (r.Field i f).CanSet = false := by
  obtain ⟨t, src, ro⟩ := r
  cases src with
  | addr l =>
    rcases h with h | h
    · simp [RValue.Field, RValue.CanSet, RValue.CanAddr, h]
    · simp [RValue.CanAddr] at h
  | copy c p => simp [RValue.Field, RValue.CanSet, RValue.CanAddr]

theorem structStep_of_not_canSet (m : Mutate) (tbl : TypeTable)
    (recur : Value → State → Res State) (r : RValue) (i : Nat) (f : StructField) (st : State)
    (h : (r.Field i f).CanSet = false) : structStep m tbl recur r i f st = .ok st := by
  simp [structStep, h]

theorem structLoop_of_not_canAddr (m : Mutate) (tbl : TypeTable)
    (recur : Value → State → Res State) (r : RValue) (hr : r.CanAddr = false) :
    ∀ (fs : List StructField) (i : Nat) (st : State),
      structLoop m tbl recur r i fs st = .ok st := by
  intro fs
  induction fs with
  | nil => intro i st; rfl
  | cons f fs ih =>
    intro i st
    rw [structLoop, structStep_of_not_canSet m tbl recur r i f st
      (RValue.field_canSet_false r i f (Or.inr hr)), Res.ok_bind]
    exact ih (i + 1) st

/-- C9. For every argument passed to `Execute` by value rather than by pointer
(its dynamic type is neither a pointer nor an interface type: a record, a map, a
primitive, a slice, ...), every registry and both match types, `Execute`
returns, invokes no hook and changes nothing: the state it returns is the state
it started in, with the caller's memory (so also the entries of a map passed by
value and whatever the record's pointer members point to) as it was. -/
theorem C9_by_value_changes_nothing (m : Mutate) (tbl : TypeTable) (h : Heap) (d : Dyn)
    (hp : kindOf tbl d.typ ≠ .Ptr) (hi : kindOf tbl d.typ ≠ .Interface) :
    Execute m tbl h (some d) = .ok (initState h) ∧
      (initState h).heap = h ∧ (initState h).calls = [] := by
  refine ⟨Execute_of_fuel m tbl h (some d) 1 _ ?_ (by simp), rfl, rfl⟩
  rw [processRecursively]
  have hav : alreadyVisited tbl (ValueOf (some d)) (initState h).visited = (false, []) := by
    simp [alreadyVisited, ValueOf, Value.CanAddr, RValue.CanAddr, initState]
  rw [hav]
  simp only
  have hst : (⟨(initState h).heap, [], (initState h).calls,
      noteExpanded (ValueOf (some d)) (initState h).expanded⟩ : State) = initState h := by
    simp [initState, ValueOf, noteExpanded]
  rw [hst]
  cases hk : Value.Kind tbl (ValueOf (some d)) with
  | Struct =>
    simp only [processStructKind, ValueOf]
    split
    · rfl
    · exact structLoop_of_not_canAddr m tbl _ ⟨d.typ, .copy d.val [], false⟩ rfl _ _ _
  | Map =>
    simp [processMapKind, ValueOf, RValue.CanSet, RValue.CanAddr]
  | Ptr => exact absurd hk hp
  | Interface => exact absurd hk hi
  | Invalid => rfl
  | String => rfl
  | Int => rfl
  | Slice => rfl
  | Array => rfl
  | Other => rfl

/-- A record with a pointer member, passed by value with the registry of the
test: nothing happens. -/
theorem C9_by_value_changes_nothing_witness :
    Execute testMutator ccTable (ccHeap "admin" "Master#123")
        (some ⟨.ref 0, .struct [.ptr (some ⟨0, []⟩), .str "admin", .str "Master#123"]⟩) =
      .ok (initState (ccHeap "admin" "Master#123")) ∧
    (initState (ccHeap "admin" "Master#123")).heap = ccHeap "admin" "Master#123" ∧
    (initState (ccHeap "admin" "Master#123")).calls = [] :=
  C9_by_value_changes_nothing testMutator ccTable (ccHeap "admin" "Master#123")
    ⟨.ref 0, .struct [.ptr (some ⟨0, []⟩), .str "admin", .str "Master#123"]⟩
    (by decide) (by decide)

theorem kindOf_of_mem_structFields (tbl : TypeTable) (t : GoType) (f : StructField)
    (h : f ∈ structFields tbl t) : kindOf tbl t = .Struct := by
  cases t with
  | ref n =>
    simp only [structFields, shapeOf] at h
    simp only [kindOf]
    generalize (tbl.getD n unknownType).shape = sh at h ⊢
    cases sh <;> simp at h ⊢
  | string => simp [structFields, shapeOf] at h
  | int => simp [structFields, shapeOf] at h
  | any => simp [structFields, shapeOf] at h

theorem RValue.interface_of_not_interface (tbl : TypeTable) (h : Heap) (r : RValue) (o : Any)
    (hk : kindOf tbl r.typ ≠ .Interface) (ho : r.Interface tbl h = .ok o) :
    ∃ x, r.load h = some x ∧ o = some ⟨r.typ, x⟩ := by
  unfold RValue.Interface at ho
  split at ho
  · cases ho
  · cases hl : r.load h with
    | none => simp [hl] at ho
    | some x =>
      simp only [hl, hk, if_false, Res.ok.injEq] at ho
      exact ⟨x, rfl, ho.symm⟩

/-- The key the loop computes is `memberKey`. -/
theorem fieldKey_eq_memberKey (m : Mutate) (tbl : TypeTable) (h : Heap) (r : RValue)
    (name : String) (key : Any) (hk : kindOf tbl r.typ ≠ .Interface)
    (hkey : fieldKey m tbl h r name = .ok key) : key = memberKey m tbl r.typ name := by
  unfold fieldKey at hkey
  unfold memberKey
  split at hkey
  · rename_i hm
    obtain ⟨o, ho, hkey⟩ := Res.bind_eq_ok hkey
    obtain ⟨x, _, rfl⟩ := RValue.interface_of_not_interface tbl h r o hk ho
    simp only [Res.ok.injEq] at hkey
    simp [hm, ← hkey, fmtT]
  · rename_i hm
    simp only [Res.ok.injEq] at hkey
    simp [hm, ← hkey]

theorem RValue.ro_of_canSet (r : RValue) (h : r.CanSet = true) : r.ro = false := by
  unfold RValue.CanSet at h
  simp at h
  exact h.2

theorem RValue.ro_of_field_canSet (r : RValue) (i : Nat) (f : StructField)
    (h : (r.Field i f).CanSet = true) : r.ro = false := by
  have := RValue.ro_of_canSet _ h
  simp [RValue.Field] at this
  exact this.1

/-- The keys `MapKeys` lists are keys of a map in memory. -/
theorem RValue.mem_MapKeys (tbl : TypeTable) (h : Heap) (r : RValue) (keys : List RValue)
    (key : RValue) (hk : r.MapKeys tbl h = .ok keys) (hmem : key ∈ keys) :
    ∃ es ∈ h.maps, ∃ e ∈ es, key = ⟨keyOf tbl r.typ, .copy e.1 [], r.ro⟩ := by
  unfold RValue.MapKeys at hk
  cases hl : (r.load h).bind h.entries with
  | none => simp [hl] at hk
  | some es =>
    simp only [hl, Res.ok.injEq] at hk
    subst hk
    obtain ⟨e, he, rfl⟩ := List.mem_map.mp hmem
    obtain ⟨x, _, hx⟩ := Option.bind_eq_some.mp hl
    cases x with
    | map handle =>
      cases handle with
      | none =>
        simp only [Heap.entries, Option.some.injEq] at hx
        subst hx
        simp at he
      | some n =>
        simp only [Heap.entries] at hx
        exact ⟨es, List.get?_mem hx, e, he, rfl⟩
    | str s => simp [Heap.entries] at hx
    | int n => simp [Heap.entries] at hx
    | struct fs => simp [Heap.entries] at hx
    | array fs => simp [Heap.entries] at hx
    | ptr t => simp [Heap.entries] at hx
    | slice t => simp [Heap.entries] at hx
    | nilIface => simp [Heap.entries] at hx
    | iface t v => simp [Heap.entries] at hx

theorem RValue.interface_copy_heap (tbl : TypeTable) (h h2 : Heap) (t : GoType) (c : Val)
    (p : List Nat) (ro : Bool) :
    RValue.Interface tbl h ⟨t, .copy c p, ro⟩ = RValue.Interface tbl h2 ⟨t, .copy c p, ro⟩ := by
  simp [RValue.Interface, RValue.load]

section NoHit

variable (m : Mutate) (tbl : TypeTable) (h : Heap)
  (hm : ∀ t f, f ∈ structFields tbl t → m.hook.Get (memberKey m tbl t f.name) = none)
  (he : ∀ es ∈ h.maps, ∀ e ∈ es, ∀ kt k,
    RValue.Interface tbl h ⟨kt, .copy e.1 [], false⟩ = .ok k → m.hook.Get k = none)

include hm in
theorem noHit_field (st : State) (r : RValue) (f : StructField) (key : Any)
    (hf : f ∈ structFields tbl r.typ)
    (hkey : fieldKey m tbl st.heap r f.name = .ok key) : m.hook.Get key = none := by
  have hk : kindOf tbl r.typ ≠ .Interface := by
    rw [kindOf_of_mem_structFields tbl r.typ f hf]; decide
  rw [fieldKey_eq_memberKey m tbl st.heap r f.name key hk hkey]
  exact hm r.typ f hf

include he in
theorem noHit_entry (st0 st : State) (r : RValue) (keys : List RValue) (key : RValue) (k : Any)
    (h0 : st0.heap = h) (hcs : r.CanSet = true) (hkeys : r.MapKeys tbl st0.heap = .ok keys)
    (hmem : key ∈ keys) (hk : key.Interface tbl st.heap = .ok k) : m.hook.Get k = none := by
  rw [h0] at hkeys
  obtain ⟨es, hes, e, hee, rfl⟩ := RValue.mem_MapKeys tbl h r keys key hkeys hmem
  rw [RValue.ro_of_canSet r hcs, RValue.interface_copy_heap tbl st.heap h] at hk
  exact he es hes e hee _ k hk

include hm he in
/-- Without a matching hook, memory and the record of invocations stay as they
are. -/
theorem noHit_unchanged (calls : List HookCall) (fuel : Nat) (v : Value) (st st2 : State)
    (hI : st.heap = h ∧ st.calls = calls)
    (hr : processRecursively m tbl fuel v st = .ok st2) : st2.heap = h ∧ st2.calls = calls := by
  refine processRecursively_invariant m tbl (fun s => s.heap = h ∧ s.calls = calls)
    (fun _ => True) ?_ ?_ ?_ fuel v st st2 hI hr
  · intro s w vis hs _
    exact ⟨hs, fun _ _ _ => trivial⟩
  · intro s r i f key mh parent current h2 _ _ hf _ hkey hget _ _ _
    rw [noHit_field m tbl hm s r f key hf hkey] at hget
    cases hget
  · intro s0 s r keys key value k mh current h2 hs0 _ _ hcs hkeys hmem _ hk hget _ _
    rw [noHit_entry m tbl h he s0 s r keys key k hs0.1 hcs hkeys hmem hk] at hget
    cases hget

theorem RValue.Interface_ne_panic (r : RValue) (hro : r.ro = false) (hp : Heap) :
    r.Interface tbl hp ≠ .panic := by
  unfold RValue.Interface
  simp only [hro, Bool.false_eq_true, if_false]
  repeat' split
  all_goals simp

theorem fieldKey_ne_panic (r : RValue) (hro : r.ro = false) (hp : Heap) (name : String) :
    fieldKey m tbl hp r name ≠ .panic := by
  unfold fieldKey
  split
  · cases hi : r.Interface tbl hp with
    | ok o => simp
    | panic => exact absurd hi (RValue.Interface_ne_panic tbl r hro hp)
    | stuck => simp
    | timeout => simp
  · simp

theorem RValue.MapKeys_ne_panic (r : RValue) (hp : Heap) : r.MapKeys tbl hp ≠ .panic := by
  unfold RValue.MapKeys
  repeat' split
  all_goals simp

theorem RValue.MapIndex_ne_panic (r key : RValue) (hp : Heap) :
    r.MapIndex tbl hp key ≠ .panic := by
  unfold RValue.MapIndex
  repeat' split
  all_goals simp

theorem Value.Elem_ne_panic (v : Value) (hp : Heap)
    (hk : Value.Kind tbl v = .Ptr ∨ Value.Kind tbl v = .Interface) :
    Value.Elem tbl hp v ≠ .panic := by
  cases v with
  | none => simp [Value.Kind] at hk
  | some r =>
    simp only [Value.Kind] at hk
    simp only [Value.Elem, RValue.Elem]
    rcases hk with hk | hk <;> rw [hk] <;> simp only <;> repeat' split
    all_goals simp

theorem Res.ne_stuck_of_ok {α : Type} {x : Res α} {a : α} (h : x = .ok a) : x ≠ .stuck := by
  rw [h]
  simp

theorem Res.bind_ne_panic_of {α β : Type} {x : Res α} {f : α → Res β}
    (hx : x ≠ .panic) (hf : ∀ a, x = .ok a → f a ≠ .panic) : x.bind f ≠ .panic := by
  cases x with
  | ok a => exact hf a rfl
  | panic => exact absurd rfl hx
  | stuck => simp
  | timeout => simp

include hm he in
/-- Without a matching hook there is no panic. -/
theorem noHit_ne_panic : ∀ (fuel : Nat) (v : Value) (st : State), st.heap = h →
    processRecursively m tbl fuel v st ≠ .panic := by
  intro fuel
  induction fuel with
  | zero => intro v st _; simp [processRecursively]
  | succ n ih =>
    intro v st hst
    rw [processRecursively]
    rcases hav : alreadyVisited tbl v st.visited with ⟨seen, vis⟩
    cases seen with
    | true => simp
    | false =>
      simp only
      have hrec : ∀ w s s2, (s.heap = h ∧ s.calls = st.calls) →
          processRecursively m tbl n w s = .ok s2 → (s2.heap = h ∧ s2.calls = st.calls) :=
        fun w s s2 hs hr => noHit_unchanged m tbl h hm he st.calls n w s s2 hs hr
      have hfield : FieldHitOk m tbl (fun s => s.heap = h ∧ s.calls = st.calls) (fun _ => True) := by
        intro s r i f key mh parent current h2 _ _ hf _ hkey hget _ _ _
        rw [noHit_field m tbl hm s r f key hf hkey] at hget
        cases hget
      have hentry : EntryHitOk m tbl (fun s => s.heap = h ∧ s.calls = st.calls) (fun _ => True) := by
        intro s0 s r keys key value k mh current h2 hs0 _ _ hcs hkeys hmem _ hk hget _ _
        rw [noHit_entry m tbl h he s0 s r keys key k hs0.1 hcs hkeys hmem hk] at hget
        cases hget
      cases hk : Value.Kind tbl v with
      | Struct =>
        simp only
        unfold processStructKind
        cases v with
        | none => simp
        | some r =>
          simp only
          split
          · simp
          · -- the loop
            have hloop : ∀ (fs : List StructField), (∀ f ∈ fs, f ∈ structFields tbl r.typ) →
                ∀ (i : Nat) (s : State), (s.heap = h ∧ s.calls = st.calls) →
                structLoop m tbl (processRecursively m tbl n) r i fs s ≠ .panic := by
              intro fs
              induction fs with
              | nil => intro _ i s _; simp [structLoop]
              | cons f fs ihf =>
                intro hfs i s hs
                rw [structLoop]
                have hfm := hfs f (List.mem_cons_self _ _)
                apply Res.bind_ne_panic_of
                · unfold structStep
                  by_cases hc : (r.Field i f).CanSet = true
                  · simp only [hc, Bool.not_true, Bool.false_eq_true, if_false]
                    apply Res.bind_ne_panic_of
                      (fieldKey_ne_panic m tbl r (RValue.ro_of_field_canSet r i f hc) _ _)
                    intro key hkey
                    rw [noHit_field m tbl hm s r f key hfm hkey]
                    exact ih _ _ hs.1
                  · simp [hc]
                · intro s1 hs1
                  exact ihf (fun g hg => hfs g (List.mem_cons_of_mem _ hg)) (i + 1) s1
                    (structStep_invariant m tbl _ _ hfield _ hrec r (fun _ => trivial) i f hfm
                      s s1 hs hs1)
            exact hloop _ (fun _ hf => hf) 0 _ ⟨hst, rfl⟩
      | Map =>
        simp only
        unfold processMapKind
        cases v with
        | none => simp
        | some r =>
          simp only
          split
          · simp
          · split
            · simp
            · rename_i hcs
              have hcs2 : r.CanSet = true := by simpa using hcs
              apply Res.bind_ne_panic_of (RValue.MapKeys_ne_panic tbl r _)
              intro keys hkeys
              have hloop : ∀ (ks : List RValue), (∀ key ∈ ks, key ∈ keys) →
                  ∀ (s : State), (s.heap = h ∧ s.calls = st.calls) →
                  mapLoop m tbl (processRecursively m tbl n) r ks s ≠ .panic := by
                intro ks
                induction ks with
                | nil => intro _ s _; simp [mapLoop]
                | cons key ks ihk =>
                  intro hks s hs
                  rw [mapLoop]
                  have hkm := hks key (List.mem_cons_self _ _)
                  apply Res.bind_ne_panic_of
                  · unfold mapStep
                    apply Res.bind_ne_panic_of (RValue.MapIndex_ne_panic tbl r key _)
                    intro value _
                    obtain ⟨es, _, e, _, hkeq⟩ := RValue.mem_MapKeys tbl _ r keys key hkeys hkm
                    have hkro : key.ro = false := by
                      rw [hkeq]; exact RValue.ro_of_canSet r hcs2
                    apply Res.bind_ne_panic_of (RValue.Interface_ne_panic tbl key hkro _)
                    intro k hk2
                    rw [noHit_entry m tbl h he
                      { st with visited := vis, expanded := noteExpanded (some r) st.expanded }
                      s r keys key k hst hcs2 hkeys hkm hk2]
                    exact ih _ _ hs.1
                  · intro s1 hs1
                    exact ihk (fun g hg => hks g (List.mem_cons_of_mem _ hg)) s1
                      (mapStep_invariant m tbl _ _ hentry _ hrec r trivial hcs2
                        { st with visited := vis, expanded := noteExpanded (some r) st.expanded }
                        ⟨hst, rfl⟩ keys hkeys key hkm s s1 hs hs1)
              exact hloop keys (fun _ hk => hk) _ ⟨hst, rfl⟩
      | Ptr =>
        simp only
        apply Res.bind_ne_panic_of (Value.Elem_ne_panic tbl v _ (Or.inl hk))
        intro e _
        exact ih _ _ hst
      | Interface =>
        simp only
        apply Res.bind_ne_panic_of (Value.Elem_ne_panic tbl v _ (Or.inr hk))
        intro e _
        exact ih _ _ hst
      | Invalid => simp
      | String => simp
      | Int => simp
      | Slice => simp
      | Array => simp
      | Other => simp

end NoHit

/-- C7. For every argument, memory and registry in which no key of a record
member (computed per the engine's match type, for the record types of the
program) and no key of a map in memory has a hook: `Execute` returns, invokes
no hook and leaves memory unchanged. (Memory is taken to have the shape its
types promise: the outcome is not `stuck`.) The empty registry of a new engine
is such a registry. -/
theorem C7_no_hook_no_change (m : Mutate) (tbl : TypeTable) (h : Heap) (data : Any)
    (hm : ∀ t f, f ∈ structFields tbl t → m.hook.Get (memberKey m tbl t f.name) = none)
    (he : ∀ es ∈ h.maps, ∀ e ∈ es, ∀ kt k,
      RValue.Interface tbl h ⟨kt, .copy e.1 [], false⟩ = .ok k → m.hook.Get k = none)
    (hshape : Execute m tbl h data ≠ .stuck) :
    ∃ st, Execute m tbl h data = .ok st ∧ st.heap = h ∧ st.calls = [] := by
  cases hr : Execute m tbl h data with
  | ok st =>
    exact ⟨st, rfl, noHit_unchanged m tbl h hm he [] _ _ _ st ⟨rfl, rfl⟩ hr⟩
  | panic => exact absurd hr (noHit_ne_panic m tbl h hm he _ _ _ rfl)
  | stuck => exact absurd hr hshape
  | timeout => exact absurd hr (Execute_ne_timeout m tbl h data)

/-- The record of the test under a new engine, of either match type: nothing
is invoked and nothing changes. -/
theorem C7_no_hook_no_change_witness :
    (∃ st, Execute (NewMutator TypeAndFieldMatch) ccTable (ccHeap "admin" "Master#123") ccRoot =
        .ok st ∧ st.heap = ccHeap "admin" "Master#123" ∧ st.calls = []) ∧
    (∃ st, Execute NewFieldMatchMutator strMapTable (strMapHeap [("password", "admin")])
        strMapRoot = .ok st ∧ st.heap = strMapHeap [("password", "admin")] ∧ st.calls = []) :=
  ⟨C7_no_hook_no_change (NewMutator TypeAndFieldMatch) ccTable (ccHeap "admin" "Master#123")
      ccRoot (fun _ _ _ => rfl) (fun _ _ _ _ _ _ _ => rfl)
      (Res.ne_stuck_of_ok (Execute_of_fuel _ _ _ _ 4 _ rfl (by simp))),
    C7_no_hook_no_change NewFieldMatchMutator strMapTable (strMapHeap [("password", "admin")])
      strMapRoot (fun _ _ _ => rfl) (fun _ _ _ _ _ _ _ => rfl)
      (Res.ne_stuck_of_ok (Execute_of_fuel _ _ _ _ 4 _ rfl (by simp)))⟩

/-! ## C8: running `Execute` a second time -/

/-- C8 (counterexample). Two hooks that always return a fixed value, so that
each applied to its own output returns that output: `fixedPointer` under `"A"`
and `fixedMask` under `"Password"`. On `s := S{}` with `s.P = &s.A` the first
`Execute(&s)` goes through `s.P` to `s.A`, finds nil, and then sets `s.A = &t`;
`t.Password` is still `"x"`. The second `Execute(&s)` goes through `s.P` to
`s.A`, now `&t`, and masks `t.Password`. Twice is not the same as once. -/
theorem C8_twice_differs_from_once :
    (∀ a b c, fixedPointer a (fixedPointer b c) = fixedPointer b c) ∧
    (∀ a b c, fixedMask a (fixedMask b c) = fixedMask b c) ∧
    ∃ st1 st2, Execute aliasMutator aliasTable aliasHeap aliasRoot = .ok st1 ∧
      Execute aliasMutator aliasTable st1.heap aliasRoot = .ok st2 ∧
      st1.heap.load ⟨1, [0]⟩ = some (.str "x") ∧
      st2.heap.load ⟨1, [0]⟩ = some (.str "********") :=
  ⟨fun _ _ _ => rfl, fun _ _ _ => rfl, _, _,
    Execute_of_fuel _ _ _ _ 5 _ rfl (by simp), Execute_of_fuel _ _ _ _ 6 _ rfl (by simp),
    rfl, rfl⟩

theorem set_eq_self_of_get {α : Type} : ∀ (l : List α) (i : Nat) (a : α),
    l.get? i = some a → l.set i a = l := by
  intro l
  induction l with
  | nil => intro i a h; simp at h
  | cons b l ih =>
    intro i a h
    cases i with
    | zero =>
      simp only [List.get?_cons_zero, Option.some.injEq] at h
      simp [h]
    | succ j =>
      simp only [List.get?_cons_succ] at h
      simp [ih j a h]

theorem Val.update_sub_self (p : List Nat) : ∀ (o x : Val),
    Val.sub p o = some x → Val.update p o x = some o := by
  induction p with
  | nil =>
    intro o x h
    simp only [Val.sub, Option.some.injEq] at h
    simp [Val.update, h]
  | cons i p ih =>
    intro o x h
    cases o with
    | struct fs =>
      simp only [Val.sub, Option.bind_eq_some] at h
      obtain ⟨f, hf, hx⟩ := h
      simp only [Val.update, hf, Option.some_bind, ih f x hx, Option.map_some',
        set_eq_self_of_get fs i f hf]
    | array es =>
      simp only [Val.sub, Option.bind_eq_some] at h
      obtain ⟨f, hf, hx⟩ := h
      simp only [Val.update, hf, Option.some_bind, ih f x hx, Option.map_some',
        set_eq_self_of_get es i f hf]
    | str s => simp [Val.sub] at h
    | int n => simp [Val.sub] at h
    | ptr t => simp [Val.sub] at h
    | map t => simp [Val.sub] at h
    | slice t => simp [Val.sub] at h
    | nilIface => simp [Val.sub] at h
    | iface t v => simp [Val.sub] at h

theorem Heap.store_load_self (h : Heap) (l : Loc) (x : Val) (hl : h.load l = some x) :
    h.store l x = some h := by
  simp only [Heap.load, Option.bind_eq_some] at hl
  obtain ⟨o, ho, hx⟩ := hl
  simp only [Heap.store, ho, Option.some_bind, Val.update_sub_self l.path o x hx,
    Option.map_some', set_eq_self_of_get h.objs l.obj o ho]

/-- Assigning to a member the value `Interface` just read from it changes
nothing. -/
theorem RValue.set_interface_self (tbl : TypeTable) (h h2 : Heap) (v : RValue) (d : Dyn)
    (hi : v.Interface tbl h = .ok (some d))
    (hs : v.Set tbl h (ValueOf (some d)) = .ok h2) : h2 = h := by
  obtain ⟨t, src, ro⟩ := v
  obtain ⟨dt, dv⟩ := d
  cases src with
  | copy c p => simp [RValue.Set, RValue.CanSet, RValue.CanAddr] at hs
  | addr l =>
    cases ro with
    | true => simp [RValue.Set, RValue.CanSet, RValue.CanAddr] at hs
    | false =>
      simp only [RValue.Set, RValue.CanSet, RValue.CanAddr, ValueOf, assignTo, RValue.load,
        Val.sub, Bool.not_false, Bool.and_self, Bool.not_true, Bool.false_eq_true, if_false]
        at hs
      simp only [RValue.Interface, RValue.load, Bool.false_eq_true, if_false] at hi
      cases hl : h.load l with
      | none => simp [hl] at hi
      | some x =>
        simp only [hl] at hi
        by_cases hk : kindOf tbl t = .Interface
        · simp only [hk, if_true] at hi
          cases x with
          | iface t2 y =>
            simp only at hi
            split at hi
            · cases hi
            · rename_i hk2
              simp only [Res.ok.injEq, Option.some.injEq, Dyn.mk.injEq] at hi
              obtain ⟨rfl, rfl⟩ := hi
              have hne : ¬ t2 = t := fun e => hk2 (e ▸ hk)
              simp only [hne, if_false, hk, if_true, Res.ok_bind,
                Heap.store_load_self h l _ hl, Res.ok.injEq] at hs
              exact hs.symm
          | nilIface => simp at hi
          | str s => simp at hi
          | int n => simp at hi
          | struct fs => simp at hi
          | array fs => simp at hi
          | ptr p => simp at hi
          | map p => simp at hi
          | slice p => simp at hi
        · simp only [hk, if_false, Res.ok.injEq, Option.some.injEq, Dyn.mk.injEq] at hi
          obtain ⟨rfl, rfl⟩ := hi
          simp only [if_true, Res.ok_bind, Heap.store_load_self h l _ hl, Res.ok.injEq] at hs
          exact hs.symm

theorem MapObj.assign_find_self : ∀ (es : MapObj) (k e : Val),
    es.find k = some e → es.assign k e = es := by
  intro es
  induction es with
  | nil => intro k e h; simp [MapObj.find] at h
  | cons p es ih =>
    intro k e h
    obtain ⟨k2, e2⟩ := p
    simp only [MapObj.find] at h
    simp only [MapObj.assign]
    by_cases hb : Val.beq k2 k = true
    · simp only [hb, if_true, Option.some.injEq] at h
      simp [hb, h]
    · simp only [hb, Bool.false_eq_true, if_false] at h
      simp [hb, ih k e h]

/-- Storing under a key the value `MapIndex` and `Interface` just read from it
changes nothing. -/
theorem RValue.setMapIndex_self (tbl : TypeTable) (h h2 : Heap) (v key : RValue) (value : Value)
    (d : Dyn) (hv : v.MapIndex tbl h key = .ok value)
    (hi : Value.Interface tbl h value = .ok (some d))
    (hs : v.SetMapIndex tbl h key (ValueOf (some d)) = .ok h2) : h2 = h := by
  obtain ⟨dt, dv⟩ := d
  unfold RValue.MapIndex at hv
  unfold RValue.SetMapIndex at hs
  split at hs
  · cases hs
  · cases hl : v.load h with
    | none => simp [hl] at hs
    | some mv =>
      cases hkl : key.load h with
      | none => simp [hl, hkl] at hs
      | some k =>
        cases mv with
        | map handle =>
          cases handle with
          | none =>
            simp only [hl, hkl, Option.some_bind, Heap.entries, MapObj.find, Res.ok.injEq] at hv
            subst hv
            simp [Value.Interface] at hi
          | some n =>
            simp only [hl, hkl, Option.some_bind, Heap.entries] at hv
            simp only [hl, hkl, ValueOf, Bool.false_eq_true, if_false] at hs
            cases hm : h.maps.get? n with
            | none =>
              rw [hm] at hs
              simp at hs
            | some es =>
              simp only [hm] at hv hs
              cases hf : es.find k with
              | none =>
                simp only [hf, Res.ok.injEq] at hv
                subst hv
                simp [Value.Interface] at hi
              | some e =>
                simp only [hf, Res.ok.injEq] at hv
                subst hv
                simp only [Value.Interface, RValue.Interface, RValue.load, Val.sub] at hi
                split at hi
                · cases hi
                · simp only [assignTo, RValue.load, Val.sub] at hs
                  by_cases hk : kindOf tbl (elemOf tbl v.typ) = .Interface
                  · simp only [hk, if_true] at hi
                    cases e with
                    | iface t2 y =>
                      simp only at hi
                      split at hi
                      · cases hi
                      · rename_i hk2
                        simp only [Res.ok.injEq, Option.some.injEq, Dyn.mk.injEq] at hi
                        obtain ⟨rfl, rfl⟩ := hi
                        have hne : ¬ t2 = elemOf tbl v.typ := fun e => hk2 (e ▸ hk)
                        simp only [hne, if_false, hk, if_true, Res.ok_bind,
                          MapObj.assign_find_self es k _ hf,
                          set_eq_self_of_get h.maps n es hm, Res.ok.injEq] at hs
                        exact hs.symm
                    | nilIface => simp at hi
                    | str s => simp at hi
                    | int n => simp at hi
                    | struct fs => simp at hi
                    | array fs => simp at hi
                    | ptr p => simp at hi
                    | map p => simp at hi
                    | slice p => simp at hi
                  · simp only [hk, if_false, Res.ok.injEq, Option.some.injEq, Dyn.mk.injEq] at hi
                    obtain ⟨rfl, rfl⟩ := hi
                    simp only [if_true, Res.ok_bind, MapObj.assign_find_self es k _ hf,
                      set_eq_self_of_get h.maps n es hm, Res.ok.injEq] at hs
                    exact hs.symm
        | str s => simp [hl, hkl] at hs
        | int n => simp [hl, hkl] at hs
        | struct fs => simp [hl, hkl] at hs
        | array fs => simp [hl, hkl] at hs
        | ptr p => simp [hl, hkl] at hs
        | slice p => simp [hl, hkl] at hs
        | nilIface => simp [hl, hkl] at hs
        | iface t y => simp [hl, hkl] at hs

/-- Every recorded invocation is the call of the hook registered under its
key. -/
theorem processRecursively_calls_genuine (m : Mutate) (tbl : TypeTable) (fuel : Nat) (v : Value)
    (st st2 : State)
    (hI : ∀ c ∈ st.calls, ∃ mh, m.hook.Get c.key = some mh ∧ c.result = mh c.parent c.current)
    (hr : processRecursively m tbl fuel v st = .ok st2) :
    ∀ c ∈ st2.calls, ∃ mh, m.hook.Get c.key = some mh ∧ c.result = mh c.parent c.current := by
  refine processRecursively_invariant m tbl
    (fun s => ∀ c ∈ s.calls, ∃ mh, m.hook.Get c.key = some mh ∧ c.result = mh c.parent c.current)
    (fun _ => True) ?_ ?_ ?_ fuel v st st2 hI hr
  · intro s w vis hs _
    exact ⟨hs, fun _ _ _ => trivial⟩
  · intro s r i f key mh parent current h2 hs _ _ _ _ hget _ _ _ c hc
    rcases List.mem_append.mp hc with hc | hc
    · exact hs c hc
    · simp only [List.mem_singleton] at hc
      subst hc
      exact ⟨mh, hget, rfl⟩
  · intro s0 s r keys key value k mh current h2 _ hs _ _ _ _ _ _ hget _ _ c hc
    rcases List.mem_append.mp hc with hc | hc
    · exact hs c hc
    · simp only [List.mem_singleton] at hc
      subst hc
      exact ⟨mh, hget, rfl⟩

/-- If every hook invocation of a traversal returns the non-nil value it was
given, the traversal leaves memory as it was. -/
theorem processRecursively_fixpoint (m : Mutate) (tbl : TypeTable) (fuel : Nat) (v : Value)
    (st st2 : State) (hr : processRecursively m tbl fuel v st = .ok st2) :
    ∃ new, st2.calls = st.calls ++ new ∧
      ((∀ c ∈ new, c.result = c.current ∧ c.current ≠ none) → st2.heap = st.heap) := by
  refine processRecursively_invariant m tbl
    (fun s => ∃ new, s.calls = st.calls ++ new ∧
      ((∀ c ∈ new, c.result = c.current ∧ c.current ≠ none) → s.heap = st.heap))
    (fun _ => True) ?_ ?_ ?_ fuel v st st2 ⟨[], by simp, fun _ => rfl⟩ hr
  · intro s w vis hs _
    exact ⟨hs, fun _ _ _ => trivial⟩
  · intro s r i f key mh parent current h2 hs _ _ _ _ _ _ hcur hset
    obtain ⟨new, hcalls, hheap⟩ := hs
    refine ⟨new ++ [⟨key, parent, current, mh parent current⟩], by simp [hcalls], ?_⟩
    intro hall
    have hlast := hall ⟨key, parent, current, mh parent current⟩ (by simp)
    simp only at hlast
    rw [hlast.1] at hset
    cases hc : current with
    | none => exact absurd hc hlast.2
    | some d =>
      rw [hc] at hset hcur
      simp only
      rw [RValue.set_interface_self tbl s.heap h2 _ d hcur hset]
      exact hheap (fun c hcm => hall c (List.mem_append_left _ hcm))
  · intro s0 s r keys key value k mh current h2 _ hs _ _ _ _ hv _ _ hcur hset
    obtain ⟨new, hcalls, hheap⟩ := hs
    refine ⟨new ++ [⟨k, none, current, mh none current⟩], by simp [hcalls], ?_⟩
    intro hall
    have hlast := hall ⟨k, none, current, mh none current⟩ (by simp)
    simp only at hlast
    rw [hlast.1] at hset
    cases hc : current with
    | none => exact absurd hc hlast.2
    | some d =>
      rw [hc] at hset hcur
      simp only
      rw [RValue.setMapIndex_self tbl s.heap h2 r key value d hv hcur hset]
      exact hheap (fun c hcm => hall c (List.mem_append_left _ hcm))

/-- C8 (amended). For every argument, memory and registry whose hooks are
idempotent (a hook applied to its own output returns that output, whatever the
first argument): if the second of two consecutive `Execute` calls invokes every
hook on a non-nil value that the same key's hook returned in the first call,
then the second call leaves memory exactly as the first call left it. -/
theorem C8_second_run_changes_nothing (m : Mutate) (tbl : TypeTable) (h : Heap) (data : Any)
    (st1 st2 : State)
    (hidem : ∀ key mh, m.hook.Get key = some mh → ∀ a b c, mh a (mh b c) = mh b c)
    (hrun1 : Execute m tbl h data = .ok st1)
    (hrun2 : Execute m tbl st1.heap data = .ok st2)
    (hsame : ∀ c ∈ st2.calls, c.current ≠ none ∧
      ∃ c1 ∈ st1.calls, c1.key = c.key ∧ c.current = c1.result) :
    st2.heap = st1.heap := by
  have hg1 := processRecursively_calls_genuine m tbl _ _ _ st1
    (by intro c hc; simp [initState] at hc) hrun1
  have hg2 := processRecursively_calls_genuine m tbl _ _ _ st2
    (by intro c hc; simp [initState] at hc) hrun2
  obtain ⟨new, hcalls, hheap⟩ := processRecursively_fixpoint m tbl _ _ _ st2 hrun2
  simp only [initState, List.nil_append] at hcalls hheap
  apply hheap
  intro c hc
  rw [← hcalls] at hc
  obtain ⟨hnn, c1, hc1, hkey, hcur⟩ := hsame c hc
  obtain ⟨mh, hget, hres⟩ := hg2 c hc
  obtain ⟨mh1, hget1, hres1⟩ := hg1 c1 hc1
  rw [hkey, hget] at hget1
  cases hget1
  refine ⟨?_, hnn⟩
  rw [hres, hcur, hres1]
  exact hidem c.key mh hget _ _ _

theorem PasswordDefaultMutator_idempotent (a b c : Any) :
    PasswordDefaultMutator a (PasswordDefaultMutator b c) = PasswordDefaultMutator b c := by
  cases c with
  | none => rfl
  | some d =>
    obtain ⟨t, v⟩ := d
    cases t <;> rfl

theorem testChain_hooks (key : Any) (mh : MutateHook) (h : testChain.Get key = some mh) :
    mh = PasswordDefaultMutator := by
  simp only [testChain, MutatorChain.Get, MutatorChain.assign, NewFieldMatchMutator, NewMutator,
    lookupHook, List.filter_nil, List.filter_cons] at h
  repeat' split at h
  all_goals first
    | (cases h; rfl)
    | simp [lookupHook] at h

/-- The record of the test, run twice with the registry of the test: the
second run invokes the hook of `"Password"` on the mask the first run stored,
and leaves the record as the first run left it. -/
theorem C8_second_run_changes_nothing_witness :
    Execute testMutator ccTable (ccHeap "admin" "Master#123") ccRoot =
      .ok (ccAfter "Master#123") ∧
    Execute testMutator ccTable (ccAfter "Master#123").heap ccRoot = .ok (ccAfter "********") ∧
    (ccAfter "********").heap = (ccAfter "Master#123").heap := by
  have h1 : Execute testMutator ccTable (ccHeap "admin" "Master#123") ccRoot =
      .ok (ccAfter "Master#123") := Execute_of_fuel _ _ _ _ 4 _ rfl (by simp)
  have h2 : Execute testMutator ccTable (ccAfter "Master#123").heap ccRoot =
      .ok (ccAfter "********") := Execute_of_fuel _ _ _ _ 4 _ rfl (by simp)
  refine ⟨h1, h2, ?_⟩
  refine C8_second_run_changes_nothing testMutator ccTable (ccHeap "admin" "Master#123") ccRoot
    _ _ (fun key mh hget a b c => ?_) h1 h2 ?_
  · rw [testChain_hooks key mh hget]
    exact PasswordDefaultMutator_idempotent a b c
  · intro c hc
    simp only [ccAfter, List.mem_singleton] at hc
    subst hc
    exact ⟨by simp [ccCall, goString], ccCall "Master#123", List.mem_singleton.mpr rfl, rfl, rfl⟩

/-! ## C5: the key under `TypeAndFieldMatch` -/

section OnlyHook

variable (mc : MutatorChain) (tbl : TypeTable) (mh : MutateHook) (A : GoType)
  (hdot : ∀ t f, f ∈ structFields tbl t → '.' ∉ f.name.data)
  (hget : mc.Get (goString (typeStr tbl A ++ ".Password")) = some mh)
  (honly : ∀ k, k ≠ goString (typeStr tbl A ++ ".Password") → mc.Get k = none)

end OnlyHook

section OnlyHookRecord

variable (mc : MutatorChain) (tbl : TypeTable) (mh : MutateHook) (A : GoType)
  (hdot : ∀ t f, f ∈ structFields tbl t → '.' ∉ f.name.data)
  (hget : mc.Get (goString (typeStr tbl A ++ ".Password")) = some mh)
  (honly : ∀ k, k ≠ goString (typeStr tbl A ++ ".Password") → mc.Get k = none)

end OnlyHookRecord

mutual
theorem Val.beq_self : ∀ v : Val, Val.beq v v = true
  | .str s => by simp [Val.beq]
  | .int n => by simp [Val.beq]
  | .struct fs => by rw [Val.beq]; exact Val.beqList_self fs
  | .array es => by rw [Val.beq]; exact Val.beqList_self es
  | .ptr t => by simp [Val.beq]
  | .map t => by simp [Val.beq]
  | .slice t => by simp [Val.beq]
  | .nilIface => by simp [Val.beq]
  | .iface t v => by rw [Val.beq]; simp [Val.beq_self v]
theorem Val.beqList_self : ∀ l : List Val, Val.beqList l l = true
  | [] => by simp [Val.beqList]
  | a :: as => by rw [Val.beqList]; simp [Val.beq_self a, Val.beqList_self as]
end

mutual
theorem Val.eq_of_beq : ∀ a b : Val, Val.beq a b = true → a = b
  | .str s, b => by cases b <;> simp [Val.beq]
  | .int n, b => by cases b <;> simp [Val.beq]
  | .struct fs, b => by
    cases b <;> simp only [Val.beq, Bool.false_eq_true, false_implies]
    intro h
    rw [Val.eqList_of_beq fs _ h]
  | .array es, b => by
    cases b <;> simp only [Val.beq, Bool.false_eq_true, false_implies]
    intro h
    rw [Val.eqList_of_beq es _ h]
  | .ptr t, b => by cases b <;> simp [Val.beq]
  | .map t, b => by cases b <;> simp [Val.beq]
  | .slice t, b => by cases b <;> simp [Val.beq]
  | .nilIface, b => by cases b <;> simp [Val.beq]
  | .iface t v, b => by
    cases b <;> simp only [Val.beq, Bool.false_eq_true, false_implies]
    intro h
    simp only [Bool.and_eq_true, beq_iff_eq] at h
    rw [h.1, Val.eq_of_beq v _ h.2]
theorem Val.eqList_of_beq : ∀ a b : List Val, Val.beqList a b = true → a = b
  | [], b => by cases b <;> simp [Val.beqList]
  | x :: xs, b => by
    cases b with
    | nil => simp [Val.beqList]
    | cons y ys =>
      intro h
      simp only [Val.beqList, Bool.and_eq_true] at h
      rw [Val.eq_of_beq x y h.1, Val.eqList_of_beq xs ys h.2]
end

theorem Any.beq_iff (a b : Any) : Any.beq a b = true ↔ a = b := by
  constructor
  · intro h
    cases a with
    | none => cases b <;> simp [Any.beq] at h ⊢
    | some x =>
      cases b with
      | none => simp [Any.beq] at h
      | some y =>
        obtain ⟨t, v⟩ := x
        obtain ⟨u, w⟩ := y
        simp only [Any.beq, Bool.and_eq_true, beq_iff_eq] at h
        rw [h.1, Val.eq_of_beq v w h.2]
  · rintro rfl
    cases a with
    | none => rfl
    | some x => simp [Any.beq, Val.beq_self]

theorem lookupHook_filter_ne (l : List (Any × MutateHook)) (k k2 : Any) (h : k2 ≠ k) :
    lookupHook (l.filter fun e => !Any.beq e.1 k) k2 = lookupHook l k2 := by
  induction l with
  | nil => rfl
  | cons e l ih =>
    obtain ⟨ek, eh⟩ := e
    by_cases hk : Any.beq ek k = true
    · have hek : ek = k := (Any.beq_iff ek k).mp hk
      have hne : Any.beq ek k2 = false := by
        cases hb : Any.beq ek k2 with
        | false => rfl
        | true => exact absurd ((Any.beq_iff ek k2).mp hb ▸ hek) (fun e => h e)
      simp [List.filter_cons, hk, lookupHook, hne, ih]
    · simp only [Bool.not_eq_true] at hk
      simp only [List.filter_cons, hk, Bool.not_false, if_true, lookupHook, ih]

theorem lookupHook_filter_self (l : List (Any × MutateHook)) (k : Any) :
    lookupHook (l.filter fun e => !Any.beq e.1 k) k = none := by
  induction l with
  | nil => rfl
  | cons e l ih =>
    obtain ⟨ek, eh⟩ := e
    by_cases hk : Any.beq ek k = true
    · simp [List.filter_cons, hk, ih]
    · simp only [Bool.not_eq_true] at hk
      simp [List.filter_cons, hk, lookupHook, ih]

theorem filter_of_lookupHook_none (l : List (Any × MutateHook)) (k : Any)
    (h : lookupHook l k = none) : (l.filter fun e => !Any.beq e.1 k) = l := by
  induction l with
  | nil => rfl
  | cons e l ih =>
    obtain ⟨ek, eh⟩ := e
    simp only [lookupHook] at h
    by_cases hk : Any.beq ek k = true
    · simp [hk] at h
    · simp only [Bool.not_eq_true] at hk
      simp only [hk, Bool.false_eq_true, if_false] at h
      simp [List.filter_cons, hk, ih h]

/-- C12 (counterexample). A key that is not a string, the integer 42, can be
registered with `Add`; `Remove` takes a string, and no call of it removes the
key: after `Remove(s)`, for any string `s`, `Get(42)` still finds the hook. -/
theorem C12_remove_cannot_reach_int_key :
    ∃ mc, (NewFieldMatchMutator.hook).Add (some ⟨.int, .int 42⟩) PasswordDefaultMutator =
        .ok mc ∧
      ∀ s : String, (mc.Remove s).Get (some ⟨.int, .int 42⟩) = some PasswordDefaultMutator := by
  refine ⟨_, rfl, ?_⟩
  intro s
  simp [MutatorChain.Remove, MutatorChain.Get, MutatorChain.assign, NewFieldMatchMutator,
    NewMutator, lookupHook, Any.beq, goString, Val.beq]

/-- C12 (amended). For every registry and every string key `s`: `Remove(s)`
returns the registry, in which `Get(s)` reports not found and `Get` of every
other key gives what it gave before; if `s` was not registered the registry is
unchanged. There is no fault. -/
theorem C12_remove_string_key (mc : MutatorChain) (s : String) :
    (mc.Remove s).Get (goString s) = none ∧
    (∀ k2, k2 ≠ goString s → (mc.Remove s).Get k2 = mc.Get k2) ∧
    (mc.Get (goString s) = none → mc.Remove s = mc) := by
  refine ⟨lookupHook_filter_self mc.mutateMapper (goString s),
    fun k2 h => lookupHook_filter_ne mc.mutateMapper (goString s) k2 h, ?_⟩
  intro h
  obtain ⟨l⟩ := mc
  simp only [MutatorChain.Remove, MutatorChain.mk.injEq]
  exact filter_of_lookupHook_none l (goString s) h

/-- The registry of the test: `Remove("password")` unregisters `"password"` and
leaves `"Password"` registered. -/
theorem C12_remove_string_key_witness :
    (testChain.Remove "password").Get (goString "password") = none ∧
    (testChain.Remove "password").Get (goString "Password") = some PasswordDefaultMutator :=
  ⟨(C12_remove_string_key testChain "password").1, rfl⟩

/-! ## C13, C14, C17: a hook that returns nil -/

/-- C13 (the code at the failing input). `PasswordDefaultMutator` is registered
under `"Password"`, and the member `Password` of `b := Box{}` has type `any` and
holds nil. The hook returns its argument, nil, which is assignable to the
member; `reflect.ValueOf(nil)` is the zero Value, and `field.Set` panics on it:
`Execute(&b)` faults. -/
theorem C13_nil_for_interface_member_panics :
    Execute testMutator boxTable boxHeap boxRoot = .panic ∧
    PasswordDefaultMutator (some ⟨.ref 0, .struct [.nilIface]⟩) none = none :=
  ⟨Execute_of_fuel _ _ _ _ 4 _ rfl (by simp), rfl⟩

/-- C14 (the code at the failing input). The entry `"password"` of a
`map[string]string` has a hook that returns nil, which is not assignable to a
string. `reflect.ValueOf(nil)` is the zero Value, and `SetMapIndex` with the
zero Value deletes the key: `Execute(&cm)` returns without a fault and the map
has lost the entry. (For a member of a record the same result panics.) -/
theorem C14_nil_for_string_entry_deletes :
    (∃ st, Execute nilMutator strMapTable
        (strMapHeap [("username", "admin"), ("password", "admin")]) strMapRoot = .ok st ∧
      st.heap = strMapHeap [("username", "admin")]) ∧
    Execute ⟨(NewFieldMatchMutator.hook).assign (goString "Password") nilHook, FieldMatch⟩
      ccTable (ccHeap "admin" "Master#123") ccRoot = .panic :=
  ⟨⟨_, Execute_of_fuel _ _ _ _ 4 _ rfl (by simp), rfl⟩,
    Execute_of_fuel _ _ _ _ 4 _ rfl (by simp)⟩

/-- C17 (the code at the failing input). In
`m := map[string]any{"username": "admin", "password": nil}` the entry
`"password"` has the hook `PasswordDefaultMutator`, which returns the entry's
value, nil. After `Execute(&m)` the key `"password"` is gone: the key set has
changed, and the entry does not hold the hook's result. -/
theorem C17_nil_result_removes_key :
    ∃ st, Execute testMutator anyMapTable anyMapHeap strMapRoot = .ok st ∧
      st.heap.maps = [[(.str "username", .iface .string (.str "admin"))]] ∧
      st.calls = [⟨goString "password", none, none, none⟩] :=
  ⟨_, Execute_of_fuel _ _ _ _ 4 _ rfl (by simp), rfl, rfl⟩

/-! ## C15: the arguments of a hook -/

/-- C15. Whenever the loop of `processStructKind` invokes the hook of a member,
the first argument is `v.Interface()`, the record as memory holds it at that
moment (so with the replacements made for earlier members), and the second is
`field.Interface()`, the member's value at that moment; whenever the loop of
`processMapKind` invokes the hook of an entry, the first argument is nil and
the second is `value.Interface()`, the entry's value at that moment. On the
record of the test with hooks under `"Username"` and `"Password"`, the second
invocation receives the record with `Username` already masked. -/
theorem C15_hook_arguments (m : Mutate) (tbl : TypeTable) (recur : Value → State → Res State) :
    (∀ (r : RValue) (i : Nat) (f : StructField) (st st2 : State) (key : Any) (mh : MutateHook),
      (r.Field i f).CanSet = true → kindOf tbl r.typ = .Struct →
      fieldKey m tbl st.heap r f.name = .ok key → m.hook.Get key = some mh →
      structStep m tbl recur r i f st = .ok st2 →
      ∃ x current, r.load st.heap = some x ∧
        (r.Field i f).Interface tbl st.heap = .ok current ∧
        st2.calls = st.calls ++ [⟨key, some ⟨r.typ, x⟩, current, mh (some ⟨r.typ, x⟩) current⟩]) ∧
    (∀ (r key : RValue) (st st2 : State) (value : Value) (k : Any) (mh : MutateHook),
      r.MapIndex tbl st.heap key = .ok value → key.Interface tbl st.heap = .ok k →
      m.hook.Get k = some mh → mapStep m tbl recur r key st = .ok st2 →
      ∃ current, Value.Interface tbl st.heap value = .ok current ∧
        st2.calls = st.calls ++ [⟨k, none, current, mh none current⟩]) ∧
    (∃ st, Execute bothMutator ccTable (ccHeap "admin" "Master#123") ccRoot = .ok st ∧
      st.calls =
        [⟨goString "Username",
            some ⟨.ref 0, .struct [.ptr (some ⟨0, []⟩), .str "admin", .str "Master#123"]⟩,
            goString "admin", goString "********"⟩,
         ⟨goString "Password",
            some ⟨.ref 0, .struct [.ptr (some ⟨0, []⟩), .str "********", .str "Master#123"]⟩,
            goString "Master#123", goString "********"⟩]) := by
  refine ⟨?_, ?_, ⟨_, Execute_of_fuel _ _ _ _ 4 _ rfl (by simp), rfl⟩⟩
  · intro r i f st st2 key mh hc hk hkey hget hstep
    unfold structStep at hstep
    simp only [hc, Bool.not_true, Bool.false_eq_true, if_false, hkey, Res.ok_bind, hget]
      at hstep
    obtain ⟨parent, hp, hstep⟩ := Res.bind_eq_ok hstep
    obtain ⟨current, hcur, hstep⟩ := Res.bind_eq_ok hstep
    obtain ⟨h2, _, hstep⟩ := Res.bind_eq_ok hstep
    obtain ⟨x, hx, rfl⟩ := RValue.interface_of_not_interface tbl st.heap r parent
      (by rw [hk]; decide) hp
    cases hstep
    exact ⟨x, current, hx, hcur, rfl⟩
  · intro r key st st2 value k mh hv hk hget hstep
    unfold mapStep at hstep
    simp only [hv, Res.ok_bind, hk, hget] at hstep
    obtain ⟨current, hcur, hstep⟩ := Res.bind_eq_ok hstep
    obtain ⟨h2, _, hstep⟩ := Res.bind_eq_ok hstep
    cases hstep
    exact ⟨current, hcur, rfl⟩

/-! ## C18: a map held by a map entry -/

/-- C18 (counterexample). In
`m := map[string]map[string]string{"inner": {"password": "admin"}}` the key
`"inner"` has no hook and `"password"` has one. `Execute(&m)` calls
`processRecursively` on the inner map, which is a map element and so not
addressable: `processMapKind` returns at `!v.CanSet()`. No hook is invoked and
the inner entry keeps `"admin"`. -/
theorem C18_inner_map_not_mutated :
    testMutator.hook.Get (goString "inner") = none ∧
    testMutator.hook.Get (goString "password") = some PasswordDefaultMutator ∧
    ∃ st, Execute testMutator nestedMapTable nestedMapHeap nestedMapRoot = .ok st ∧
      st.heap = nestedMapHeap ∧ st.calls = [] :=
  ⟨rfl, rfl, _, Execute_of_fuel _ _ _ _ 4 _ rfl (by simp), rfl, rfl⟩

theorem processRecursively_map_copy (m : Mutate) (tbl : TypeTable) (n : Nat) (t : GoType)
    (c : Val) (p : List Nat) (ro : Bool) (st : State) (hk : kindOf tbl t = .Map) :
    processRecursively m tbl (n + 1) (some ⟨t, .copy c p, ro⟩) st = .ok st := by
  simp [processRecursively, alreadyVisited, Value.CanAddr, RValue.CanAddr, Value.Kind, hk,
    noteExpanded, processMapKind, RValue.CanSet]

theorem RValue.MapIndex_copy (tbl : TypeTable) (h : Heap) (r key : RValue) (value : RValue)
    (hv : r.MapIndex tbl h key = .ok (some value)) :
    ∃ e, value = ⟨elemOf tbl r.typ, .copy e [], r.ro || key.ro⟩ := by
  unfold RValue.MapIndex at hv
  split at hv
  · split at hv
    · cases hv
    · simp only [Res.ok.injEq, Option.some.injEq] at hv
      exact ⟨_, hv.symm⟩
  · cases hv

/-- C18 (amended). For every map whose entry under a key without a hook holds
another map, directly or inside an interface value: the iteration of the loop
of `processMapKind` for that entry calls `processRecursively` on the entry's
value and returns the state unchanged. The inner map is a map element, which
is not addressable, so `processMapKind` returns at its `CanSet` guard: no inner
entry is replaced and no hook is invoked for it, whatever the registry holds. -/
theorem C18_inner_map_left_alone (m : Mutate) (tbl : TypeTable) (n : Nat) (r key : RValue)
    (st : State) (value : RValue) (k : Any)
    (hv : r.MapIndex tbl st.heap key = .ok (some value))
    (hk : key.Interface tbl st.heap = .ok k) (hget : m.hook.Get k = none)
    (hmap : kindOf tbl value.typ = .Map ∨
      (kindOf tbl value.typ = .Interface ∧
        ∃ t2 x, value.load st.heap = some (.iface t2 x) ∧ kindOf tbl t2 = .Map)) :
    mapStep m tbl (processRecursively m tbl (n + 2)) r key st = .ok st := by
  obtain ⟨e, rfl⟩ := RValue.MapIndex_copy tbl st.heap r key value hv
  unfold mapStep
  simp only [hv, Res.ok_bind, hk, hget]
  rcases hmap with hm | ⟨hi, t2, x, hl, hm⟩
  · exact processRecursively_map_copy m tbl (n + 1) _ e [] _ st hm
  · simp only at hi
    simp only [RValue.load, Val.sub, Option.some.injEq] at hl
    subst hl
    have hne : kindOf tbl t2 ≠ .Interface := by rw [hm]; decide
    rw [processRecursively]
    simp only [alreadyVisited, Value.CanAddr, RValue.CanAddr, Bool.not_false, if_true,
      Value.Kind, hi, Value.Elem, RValue.Elem, RValue.load, Val.sub, hne, if_false,
      Res.ok_bind, noteExpanded]
    exact processRecursively_map_copy m tbl n t2 x [] _ st hm

/-- The entry `"inner"` of the map above, in the state in which the loop
reaches it. -/
theorem C18_inner_map_left_alone_witness :
    mapStep testMutator nestedMapTable (processRecursively testMutator nestedMapTable 2)
      nestedMapValue innerKey (initState nestedMapHeap) = .ok (initState nestedMapHeap) :=
  C18_inner_map_left_alone testMutator nestedMapTable 0 nestedMapValue innerKey
    (initState nestedMapHeap) ⟨.ref 0, .copy (.map (some 1)) [], false⟩ (goString "inner")
    rfl rfl rfl (Or.inl rfl)

/-! ## C19: slices and arrays are leaves -/

set_option maxRecDepth 100000 in
/-- `Add` beside `Remove`: none of the 256 schedules of their eight actions
ends in a fault. -/
theorem add_remove_no_fault :
    ∀ sched ∈ allSchedules 8,
      noFault (runSchedule sched addActs removeActs ⟨false, false, false⟩) = true := by
  decide

/-- C16 (the code at the failing schedule). `Get` does not take the lock. With
`Add` in one goroutine and `Get` in another, the schedule `Lock`, begin of the
map write, `Get`'s lookup, end of the map write, `Unlock` is possible: the
lookup runs while `Add` holds the lock and is writing the map, and the runtime
aborts. `Add` beside `Remove`, which both take the lock, has no such schedule:
in all 256 schedules of their eight actions there is no fault. -/
theorem C16_get_reads_during_write :
    Act.lock ∉ getActs ∧
    (∃ s, runSchedule [false, false, true, false, false] addActs getActs
        ⟨false, false, false⟩ = some s ∧ s.fault = true) ∧
    (∀ sched ∈ allSchedules 8,
      noFault (runSchedule sched addActs removeActs ⟨false, false, false⟩) = true) :=
  ⟨by decide, ⟨_, rfl, rfl⟩, add_remove_no_fault⟩

end Gomutator
